import Mathlib

/-!
Verification development for the Dijkstra step-through visualizer
(`finalCode_termProject.py`).

The algorithmic core of the program is the class `DijkstraVisualizer`:
a state machine executing Dijkstra's algorithm one settled node per
`step()` call, under two frontier strategies selected by a radio button
(`"heap"`: a `heapq` binary min-heap with lazy deletion of stale entries;
`"lin"`: a linear minimum scan over the unvisited set).

Shallow embedding conventions:
* Node identifiers are `String`, edge weights are `ℕ` (the built-in graph
  uses non-negative integer weights; Python floats appear only as `0.0`,
  `inf` and sums of integer weights, so `WithTop ℕ` models the distance
  domain exactly).
* Python dicts `dist` / `prev` are modelled as total functions; the source
  only ever accesses them at graph keys (keys absent from the dict would
  raise `KeyError` in Python; the total function assigns them `⊤` / `none`
  and theorems carry well-formedness hypotheses so those points are never
  relevant).
* The `heapq` priority queue is modelled as a list kept sorted by the
  lexicographic order on `(distance, node)` pairs — the order Python uses
  to compare the tuples it stores.  `heappush` becomes ordered insertion
  and `heappop` becomes taking the head; this preserves `heapq`'s
  observable contract (the multiset of entries, and pop returning a
  minimal entry).
* The Python `set` `unvisited` is modelled as a duplicate-free list whose
  order stands for the set's (unspecified) iteration order; `reset` takes
  that order as an explicit parameter `ord`.
* UI-only effects (canvas drawing, labels, button states) are outside the
  model; `time.perf_counter()` is modelled by an explicit timestamp
  argument to `start`.
-/

namespace DijkstraViz

/-- Distance domain: tentative distances are either a natural number or
the sentinel `inf` (`self.dist = {n: float("inf") ...}`). -/
abbrev Dist := WithTop ℕ

/-- The graph representation of the source: a dict from node to adjacency
list of `(neighbor, weight)` pairs, modelled as an association list in the
dict's insertion order (`Graph = Dict[str, List[Edge]]`). -/
abbrev GraphL := List (String × List (String × ℕ))

/-- The node set of the graph, in dict insertion order (`self.graph` keys). -/
def nodesOf (g : GraphL) : List String := g.map Prod.fst

/-- Adjacency lookup `self.graph[u]`.  Totalized with `[]` for absent keys
(Python would raise `KeyError`; theorems keep `u` among the keys). -/
def adjOf (g : GraphL) (u : String) : List (String × ℕ) :=
  (List.lookup u g).getD []

/-- The two frontier strategies of the radio button
`("Min-Heap", "heap")` / `("Linear Scan", "lin")`. -/
inductive Mode where
  | heap
  | lin
  deriving DecidableEq

/-- The mutable state owned by `DijkstraVisualizer` (the algorithmic
fields set in `reset`): `self.dist`, `self.prev`, `self.visited`,
`self.unvisited`, `self.pq`, `self.current_node`, `self.is_running`,
`self.is_finished`, `self.start_time`. -/
structure EngineState where
  dist : String → Dist
  prev : String → Option String
  visited : List String
  unvisited : List String
  pq : List (Dist × String)
  current : Option String
  is_running : Bool
  is_finished : Bool
  start_time : ℕ

/-- Lexicographic comparison of char lists by code point: exactly how
Python compares the node-name strings stored in heap tuples (the empty
string precedes every extension). -/
def charListLeB : List Char → List Char → Bool
  | [], _ => true
  | _ :: _, [] => false
  | c :: cs, d :: ds =>
    if c < d then true
    else if d < c then false
    else charListLeB cs ds

/-- Python's `<=` on strings, as a Boolean. -/
def strLeB (x y : String) : Bool :=
  charListLeB x.data y.data

/-- Python's `<=` on strings, as a proposition. -/
def strLe (x y : String) : Prop :=
  strLeB x y = true

instance : DecidableRel strLe := fun x y => by
  unfold strLe; infer_instance

/-- The order Python uses on the tuples stored in `self.pq`:
lexicographic on `(distance, node)`. -/
def entryLe (e f : Dist × String) : Prop :=
  e.1 < f.1 ∨ (e.1 = f.1 ∧ strLe e.2 f.2)

instance : DecidableRel entryLe := fun e f => by
  unfold entryLe; infer_instance

/-- Model of `heapq.heappush(self.pq, e)`: the heap is modelled as a sorted list,
so a push is an ordered insertion. -/
def pqPush (e : Dist × String) (pq : List (Dist × String)) : List (Dist × String) :=
  List.orderedInsert entryLe e pq

/-- The predicate of the lazy-deletion loop
`while self.pq and self.pq[0][1] in self.visited`. -/
def staleB (visited : List String) (e : Dist × String) : Bool :=
  visited.contains e.2

/-- The selection phase of `step()` in heap mode: pop and discard stale
entries (nodes already visited), then pop the first fresh entry.  Returns
`none` when the queue runs empty (`if not self.pq`), otherwise the fresh
entry `(dist_u, u)` together with the remaining queue. -/
def popFresh (visited : List String) (pq : List (Dist × String)) :
    Option ((Dist × String) × List (Dist × String)) :=
  match pq.dropWhile (staleB visited) with
  | [] => none
  | e :: rest => some (e, rest)

/-- Model of `min(self.unvisited, key=self.dist.get, default=None)`: Python's `min`
returns the first element (in iteration order) attaining the minimal key;
it replaces the running best only on a strictly smaller key. -/
def pyMin (key : String → Dist) : List String → Option String
  | [] => none
  | x :: xs => some (xs.foldl (fun b y => if key y < key b then y else b) x)

/-- One iteration of the relaxation loop
`for neighbor, weight in self.graph[u]` in `step()`: skip visited
neighbors; on strict improvement update distance and predecessor and, in
heap mode only, push the improved entry. -/
def relaxOne (mode : Mode) (u : String) (du : Dist) (s : EngineState)
    (e : String × ℕ) : EngineState :=
  if e.1 ∈ s.visited then s
  else if du + (e.2 : Dist) < s.dist e.1 then
    { s with
      dist := Function.update s.dist e.1 (du + (e.2 : Dist)),
      prev := Function.update s.prev e.1 (some u),
      pq := if mode = Mode.heap then pqPush (du + (e.2 : Dist), e.1) s.pq else s.pq }
  else s

/-- The whole relaxation loop of `step()` over the adjacency list of the
settled node `u`, with `du` the value `dist_u` of the source. -/
def relaxAll (g : GraphL) (mode : Mode) (u : String) (du : Dist)
    (s : EngineState) : EngineState :=
  (adjOf g u).foldl (relaxOne mode u du) s

/-- Model of `self._finish()`: sets the finished flag and clears the running flag
(labels, timing display and redraw are UI-only). -/
def finishS (s : EngineState) : EngineState :=
  { s with is_finished := true, is_running := false }

/-- Model of `self.step()`: guard (`if not self.is_running or self.is_finished:
return`), candidate selection per mode, termination check, settling
(current node, visited set, frontier removal), end-node check, and the
relaxation loop. -/
def stepE (g : GraphL) (endN : String) (mode : Mode) (s : EngineState) :
    EngineState :=
  if s.is_running = false ∨ s.is_finished = true then s
  else
    match mode with
    | Mode.heap =>
      match popFresh s.visited s.pq with
      | none => finishS { s with pq := [] }
      | some (e, rest) =>
        let s1 : EngineState :=
          { s with pq := rest, current := some e.2, visited := s.visited ++ [e.2] }
        if e.2 = endN then finishS s1
        else relaxAll g Mode.heap e.2 e.1 s1
    | Mode.lin =>
      match pyMin s.dist s.unvisited with
      | none => finishS s
      | some u =>
        if s.dist u = ⊤ then finishS s
        else
          let s1 : EngineState :=
            { s with unvisited := s.unvisited.erase u,
                     current := some u, visited := s.visited ++ [u] }
          if u = endN then finishS s1
          else relaxAll g Mode.lin u (s.dist u) s1

/-- Model of `self.reset()`: distances all infinite except `0` at the start node,
no predecessors, empty visited set, the full node set as the unvisited
set (`set(self.graph)`, whose unspecified iteration order is the
parameter `ord`), empty priority queue, no current node, Idle flags. -/
def resetE (startN : String) (ord : List String) : EngineState where
  dist := fun v => if v = startN then (0 : Dist) else ⊤
  prev := fun _ => none
  visited := []
  unvisited := ord
  pq := []
  current := none
  is_running := false
  is_finished := false
  start_time := 0

/-- Model of `self.start()`: rejected (early return) only while `self.is_running`;
otherwise seeds the heap with `(0.0, self.start_node)` in heap mode, sets
the running flag and records the start timestamp `t`
(`time.perf_counter()`). -/
def startE (startN : String) (mode : Mode) (t : ℕ) (s : EngineState) :
    EngineState :=
  if s.is_running = true then s
  else
    { s with
      pq := if mode = Mode.heap then pqPush ((0 : Dist), startN) s.pq else s.pq,
      is_running := true,
      start_time := t }

/-- Iterating `k` consecutive `step()` calls. -/
def stepN (g : GraphL) (endN : String) (mode : Mode) : ℕ → EngineState → EngineState
  | 0, s => s
  | k + 1, s => stepN g endN mode k (stepE g endN mode s)

/-- The predecessor walk of `_redraw(show_path=True)`:
`curr = end; while curr: path.append(curr); curr = self.prev[curr]`.
The source loop is unbounded; the fuel argument is a bound on the walk
length, and `|V|` is proved sufficient on every engine-reachable state. -/
def walkPrev (prev : String → Option String) : ℕ → String → List String
  | 0, _ => []
  | fuel + 1, v =>
    v :: (match prev v with
          | none => []
          | some p => walkPrev prev fuel p)

/-- Path reconstruction as performed by `_redraw(show_path=True)`: only
when `self.dist[self.end_node] < inf` is the predecessor walk performed
and reversed into start→end order; otherwise no path is reported. -/
def currentPath (g : GraphL) (endN : String) (s : EngineState) :
    Option (List String) :=
  if s.dist endN < ⊤ then some ((walkPrev s.prev (nodesOf g).length endN).reverse)
  else none

/-- Model of `path_exists = self.dist[self.end_node] < float("inf")` computed by
`_finish` (drives the "Path found!" / "Target is unreachable." report). -/
def pathFound (endN : String) (s : EngineState) : Bool :=
  decide (s.dist endN < ⊤)

/-- Well-formedness of a graph value: dict keys are distinct and every
referenced neighbor is itself a key. -/
def Wf (g : GraphL) : Prop :=
  (nodesOf g).Nodup ∧ ∀ p ∈ g, ∀ e ∈ p.2, e.1 ∈ nodesOf g

instance : DecidablePred Wf := fun g => by
  unfold Wf; infer_instance

/-- Predicate stating `ord` is a possible iteration order of `set(self.graph)`: a
duplicate-free enumeration of exactly the graph's nodes. -/
def PermOf (g : GraphL) (ord : List String) : Prop :=
  ord.Nodup ∧ (∀ v ∈ ord, v ∈ nodesOf g) ∧ (∀ v ∈ nodesOf g, v ∈ ord)

instance (g : GraphL) (ord : List String) : Decidable (PermOf g ord) := by
  unfold PermOf; infer_instance

/-- Assertion that the minimal key value over `l` is attained by exactly one
element of `l`: then `min(l, key=...)` cannot depend on the iteration
order of `l`. -/
def UniqueMin (key : String → Dist) (l : List String) : Prop :=
  ∀ u ∈ l, ∀ v ∈ l, (∀ w ∈ l, key u ≤ key w) → (∀ w ∈ l, key v ≤ key w) → u = v

instance (key : String → Dist) (l : List String) : Decidable (UniqueMin key l) := by
  unfold UniqueMin; infer_instance

/-- The undirectedness invariant of the data model: every adjacency entry
is mirrored with the same weight. -/
def SymmG (g : GraphL) : Prop :=
  ∀ p ∈ g, ∀ e ∈ p.2, (p.1, e.2) ∈ adjOf g e.1

instance : DecidablePred SymmG := fun g => by
  unfold SymmG; infer_instance

/-- The hard-coded graph of `__init__`. -/
def builtinGraph : GraphL :=
  [("A", [("B", 2), ("C", 5)]),
   ("B", [("A", 2), ("C", 6), ("D", 1)]),
   ("C", [("A", 5), ("B", 6), ("E", 3)]),
   ("D", [("B", 1), ("E", 1), ("F", 4)]),
   ("E", [("C", 3), ("D", 1), ("G", 2)]),
   ("F", [("D", 4), ("G", 1)]),
   ("G", [("E", 2), ("F", 1)])]

/-- The nodes in ascending name order, used as the unvisited-set
iteration order that matches the heap's tie-breaking. -/
def sortNodes (g : GraphL) : List String :=
  List.insertionSort strLe (nodesOf g)

/-- A complete interaction with the engine: `reset()`, `start()` (with
timestamp `0`), then `k` presses of the Step button. -/
def engineRun (g : GraphL) (a b : String) (mode : Mode) (ord : List String)
    (k : ℕ) : EngineState :=
  stepN g b mode k (startE a mode 0 (resetE a ord))

/-- The number of nodes that are neither visited nor the end node: the
termination measure of a run. -/
def settleCount (g : GraphL) (b : String) (s : EngineState) : ℕ :=
  ((nodesOf g).filter (fun v => !s.visited.contains v && v != b)).length

/-- Agreement of the mode-independent observable state between two engine
states: distance table, predecessor table, visited order, current node
and the run flags (the frontier representations are mode-specific). -/
def StateEquiv (s1 s2 : EngineState) : Prop :=
  s1.dist = s2.dist ∧ s1.prev = s2.prev ∧ s1.visited = s2.visited ∧
    s1.current = s2.current ∧ s1.is_running = s2.is_running ∧
    s1.is_finished = s2.is_finished

/-- A graph with two equal-cost frontier candidates (`B` and `C` are both
at distance 1 from `A`): used to separate the two modes' tie-breaking. -/
def tieGraph : GraphL :=
  [("A", [("B", 1), ("C", 1)]),
   ("B", [("A", 1)]),
   ("C", [("A", 1), ("D", 1)]),
   ("D", [("C", 1)])]

/-- A graph with two connected components `{A, B}` and `{C, D}`: used for
the unreachable-target scenario. -/
def splitGraph : GraphL :=
  [("A", [("B", 1)]), ("B", [("A", 1)]), ("C", [("D", 1)]), ("D", [("C", 1)])]

/-- Mathematical reference notion for cost claims: `HasWalk g a v c`
states that the adjacency structure admits a walk from `a` to `v` of
total weight `c`.  `dist[end]` at completion is characterised as the
least such cost. -/
inductive HasWalk (g : GraphL) (a : String) : String → ℕ → Prop where
  | nil : HasWalk g a a 0
  | cons {u v : String} {w c : ℕ} :
      HasWalk g a u c → (v, w) ∈ adjOf g u → HasWalk g a v (c + w)

/-- The inductive invariant of the engine relating the mutable state to
the graph `g`, start node `a`, end node `b` and the frontier strategy
`mode` the run is using. -/
structure Inv (g : GraphL) (a b : String) (mode : Mode) (s : EngineState) : Prop where
  visited_nodes : ∀ v ∈ s.visited, v ∈ nodesOf g
  visited_nodup : s.visited.Nodup
  visited_finite : ∀ v ∈ s.visited, s.dist v ≠ ⊤
  dist_start : s.dist a = 0
  finite_nodes : ∀ v, s.dist v ≠ ⊤ → v = a ∨ v ∈ nodesOf g
  pq_sorted : List.Sorted entryLe s.pq
  pq_entries : ∀ e ∈ s.pq, e.2 ∈ nodesOf g ∧ s.dist e.2 ≤ e.1 ∧ e.1 ≠ ⊤
  pq_fresh : mode = Mode.heap → ∀ v ∈ nodesOf g, v ∉ s.visited →
    s.dist v ≠ ⊤ → (s.dist v, v) ∈ s.pq
  unvisited_iff : mode = Mode.lin →
    ∀ v, v ∈ s.unvisited ↔ (v ∈ nodesOf g ∧ v ∉ s.visited)
  unvisited_nodup : s.unvisited.Nodup
  prev_visited : ∀ v u, s.prev v = some u → u ∈ s.visited ∧ s.dist u ≠ ⊤
  prev_idx : ∀ v u, s.prev v = some u → v ∈ s.visited →
    List.indexOf u s.visited < List.indexOf v s.visited
  prev_none : ∀ v, v ≠ a → s.dist v ≠ ⊤ → s.prev v ≠ none
  prev_start : s.prev a = none
  fin_endpoint : s.is_finished = true → s.dist b ≠ ⊤ → b ∈ s.visited

def Coupled (g : GraphL) (a b : String) (sh sl : EngineState) : Prop :=
  Inv g a b Mode.heap sh ∧ Inv g a b Mode.lin sl ∧ StateEquiv sh sl ∧
    List.Sorted strLe sl.unvisited

/-- The cost-correctness invariant of a run: settled nodes carry minimal
walk costs, edges out of settled nodes (except an end node settled by the
finishing step) have been relaxed, every finite distance and every queue
entry is realised by an actual walk, at a finished state the end node's
distance is below every unsettled distance, and the end node is settled
only by a finishing step. -/
structure DInv (g : GraphL) (a b : String) (s : EngineState) : Prop where
  d1 : ∀ v ∈ s.visited, ∀ c : ℕ, HasWalk g a v c → s.dist v ≤ (c : Dist)
  d2 : ∀ u ∈ s.visited, u ≠ b → ∀ e ∈ adjOf g u, e.1 ∉ s.visited →
    s.dist e.1 ≤ s.dist u + (e.2 : Dist)
  d3 : ∀ v, s.dist v ≠ ⊤ → ∃ c : ℕ, s.dist v = (c : Dist) ∧ HasWalk g a v c
  d4 : ∀ e ∈ s.pq, ∃ c : ℕ, e.1 = (c : Dist) ∧ HasWalk g a e.2 c
  d5 : s.is_finished = true → ∀ y, y ∉ s.visited → s.dist b ≤ s.dist y
  d6 : b ∈ s.visited → s.is_finished = true

/-! ### Basic structural lemmas about a single relaxation -/

theorem relaxOne_visited (mode : Mode) (u : String) (du : Dist)
    (s : EngineState) (e : String × ℕ) :
    (relaxOne mode u du s e).visited = s.visited := by
  unfold relaxOne
  split
  · rfl
  · split <;> rfl

theorem relaxOne_unvisited (mode : Mode) (u : String) (du : Dist)
    (s : EngineState) (e : String × ℕ) :
    (relaxOne mode u du s e).unvisited = s.unvisited := by
  unfold relaxOne
  split
  · rfl
  · split <;> rfl

theorem relaxOne_flags (mode : Mode) (u : String) (du : Dist)
    (s : EngineState) (e : String × ℕ) :
    (relaxOne mode u du s e).is_running = s.is_running ∧
      (relaxOne mode u du s e).is_finished = s.is_finished ∧
      (relaxOne mode u du s e).current = s.current ∧
      (relaxOne mode u du s e).start_time = s.start_time := by
  unfold relaxOne
  split
  · exact ⟨rfl, rfl, rfl, rfl⟩
  · split <;> exact ⟨rfl, rfl, rfl, rfl⟩

theorem relaxOne_dist_le (mode : Mode) (u : String) (du : Dist)
    (s : EngineState) (e : String × ℕ) (v : String) :
    (relaxOne mode u du s e).dist v ≤ s.dist v := by
  unfold relaxOne
  split
  · exact le_refl _
  · split
    · simp only [Function.update_apply]
      split
      · next hv =>
        subst hv
        exact le_of_lt (by assumption)
      · exact le_refl _
    · exact le_refl _

theorem relaxOne_dist_ne (mode : Mode) (u : String) (du : Dist)
    (s : EngineState) (e : String × ℕ) (v : String) (hv : v ≠ e.1) :
    (relaxOne mode u du s e).dist v = s.dist v ∧
      (relaxOne mode u du s e).prev v = s.prev v := by
  unfold relaxOne
  split
  · exact ⟨rfl, rfl⟩
  · split
    · exact ⟨Function.update_noteq hv _ _, Function.update_noteq hv _ _⟩
    · exact ⟨rfl, rfl⟩

theorem relaxOne_frozen (mode : Mode) (u : String) (du : Dist)
    (s : EngineState) (e : String × ℕ) (v : String) (hv : v ∈ s.visited) :
    (relaxOne mode u du s e).dist v = s.dist v ∧
      (relaxOne mode u du s e).prev v = s.prev v := by
  by_cases hve : v = e.1
  · subst hve
    unfold relaxOne
    rw [if_pos hv]
    exact ⟨rfl, rfl⟩
  · exact relaxOne_dist_ne mode u du s e v hve

/-! ### The same facts for the whole relaxation loop -/

theorem relaxAll_visited (g : GraphL) (mode : Mode) (u : String) (du : Dist)
    (s : EngineState) : (relaxAll g mode u du s).visited = s.visited := by
  unfold relaxAll
  generalize adjOf g u = l
  induction l generalizing s with
  | nil => rfl
  | cons e l ih => rw [List.foldl_cons, ih, relaxOne_visited]

theorem relaxAll_unvisited (g : GraphL) (mode : Mode) (u : String) (du : Dist)
    (s : EngineState) : (relaxAll g mode u du s).unvisited = s.unvisited := by
  unfold relaxAll
  generalize adjOf g u = l
  induction l generalizing s with
  | nil => rfl
  | cons e l ih => rw [List.foldl_cons, ih, relaxOne_unvisited]

theorem relaxAll_flags (g : GraphL) (mode : Mode) (u : String) (du : Dist)
    (s : EngineState) :
    (relaxAll g mode u du s).is_running = s.is_running ∧
      (relaxAll g mode u du s).is_finished = s.is_finished ∧
      (relaxAll g mode u du s).current = s.current ∧
      (relaxAll g mode u du s).start_time = s.start_time := by
  unfold relaxAll
  generalize adjOf g u = l
  induction l generalizing s with
  | nil => exact ⟨rfl, rfl, rfl, rfl⟩
  | cons e l ih =>
    rw [List.foldl_cons]
    obtain ⟨h1, h2, h3, h4⟩ := ih (relaxOne mode u du s e)
    obtain ⟨g1, g2, g3, g4⟩ := relaxOne_flags mode u du s e
    exact ⟨h1.trans g1, h2.trans g2, h3.trans g3, h4.trans g4⟩

theorem relaxAll_dist_le (g : GraphL) (mode : Mode) (u : String) (du : Dist)
    (s : EngineState) (v : String) :
    (relaxAll g mode u du s).dist v ≤ s.dist v := by
  unfold relaxAll
  generalize adjOf g u = l
  induction l generalizing s with
  | nil => exact le_refl _
  | cons e l ih =>
    rw [List.foldl_cons]
    exact (ih (relaxOne mode u du s e)).trans (relaxOne_dist_le mode u du s e v)

theorem relaxAll_frozen (g : GraphL) (mode : Mode) (u : String) (du : Dist)
    (s : EngineState) (v : String) (hv : v ∈ s.visited) :
    (relaxAll g mode u du s).dist v = s.dist v ∧
      (relaxAll g mode u du s).prev v = s.prev v := by
  unfold relaxAll
  generalize adjOf g u = l
  induction l generalizing s with
  | nil => exact ⟨rfl, rfl⟩
  | cons e l ih =>
    rw [List.foldl_cons]
    obtain ⟨h1, h2⟩ := relaxOne_frozen mode u du s e v hv
    have hv' : v ∈ (relaxOne mode u du s e).visited := by
      rw [relaxOne_visited]; exact hv
    obtain ⟨g1, g2⟩ := ih (relaxOne mode u du s e) hv'
    exact ⟨g1.trans h1, g2.trans h2⟩

/-! ### Basic structural lemmas about a single step -/

theorem stepE_inert (g : GraphL) (endN : String) (mode : Mode)
    (s : EngineState) (h : s.is_running = false ∨ s.is_finished = true) :
    stepE g endN mode s = s := by
  unfold stepE
  rw [if_pos h]

theorem stepE_finished_inert (g : GraphL) (endN : String) (mode : Mode)
    (s : EngineState) (h : s.is_finished = true) :
    stepE g endN mode s = s :=
  stepE_inert g endN mode s (Or.inr h)

theorem stepE_dist_le (g : GraphL) (endN : String) (mode : Mode)
    (s : EngineState) (v : String) :
    (stepE g endN mode s).dist v ≤ s.dist v := by
  unfold stepE
  split
  · exact le_refl _
  · cases mode with
    | heap =>
      dsimp only
      split
      · exact le_refl _
      · split
        · exact le_refl _
        · exact relaxAll_dist_le _ _ _ _ _ v
    | lin =>
      dsimp only
      split
      · exact le_refl _
      · split
        · exact le_refl _
        · split
          · exact le_refl _
          · exact relaxAll_dist_le _ _ _ _ _ v

theorem stepE_frozen (g : GraphL) (endN : String) (mode : Mode)
    (s : EngineState) (v : String) (hv : v ∈ s.visited) :
    (stepE g endN mode s).dist v = s.dist v ∧
      (stepE g endN mode s).prev v = s.prev v ∧
      v ∈ (stepE g endN mode s).visited := by
  unfold stepE
  split
  · exact ⟨rfl, rfl, hv⟩
  · cases mode with
    | heap =>
      dsimp only
      split
      · exact ⟨rfl, rfl, hv⟩
      · next e rest _ =>
        have hv1 : v ∈ s.visited ++ [e.2] := List.mem_append_left _ hv
        split
        · exact ⟨rfl, rfl, hv1⟩
        · obtain ⟨h1, h2⟩ := relaxAll_frozen g Mode.heap e.2 e.1
            { s with pq := rest, current := some e.2,
                     visited := s.visited ++ [e.2] } v hv1
          refine ⟨h1, h2, ?_⟩
          rw [relaxAll_visited]
          exact hv1
    | lin =>
      dsimp only
      split
      · exact ⟨rfl, rfl, hv⟩
      · next u _ =>
        split
        · exact ⟨rfl, rfl, hv⟩
        · have hv1 : v ∈ s.visited ++ [u] := List.mem_append_left _ hv
          split
          · exact ⟨rfl, rfl, hv1⟩
          · obtain ⟨h1, h2⟩ := relaxAll_frozen g Mode.lin u (s.dist u)
              { s with unvisited := s.unvisited.erase u,
                       current := some u, visited := s.visited ++ [u] } v hv1
            refine ⟨h1, h2, ?_⟩
            rw [relaxAll_visited]
            exact hv1

theorem stepE_unvisited_heap (g : GraphL) (endN : String) (s : EngineState) :
    (stepE g endN Mode.heap s).unvisited = s.unvisited := by
  unfold stepE
  split
  · rfl
  · dsimp only
    split
    · rfl
    · split
      · rfl
      · rw [relaxAll_unvisited]

theorem stepE_dist_start (g : GraphL) (endN : String) (mode : Mode)
    (s : EngineState) (a : String) (h : s.dist a = 0) :
    (stepE g endN mode s).dist a = 0 := by
  have := stepE_dist_le g endN mode s a
  rw [h] at this
  exact le_antisymm this (zero_le _)

/-! ### Iterated stepping -/

theorem stepN_zero (g : GraphL) (endN : String) (mode : Mode)
    (s : EngineState) : stepN g endN mode 0 s = s := rfl

theorem stepN_succ (g : GraphL) (endN : String) (mode : Mode) (k : ℕ)
    (s : EngineState) :
    stepN g endN mode (k + 1) s = stepN g endN mode k (stepE g endN mode s) := rfl

theorem stepN_succ_out (g : GraphL) (endN : String) (mode : Mode) (k : ℕ)
    (s : EngineState) :
    stepN g endN mode (k + 1) s = stepE g endN mode (stepN g endN mode k s) := by
  induction k generalizing s with
  | zero => rfl
  | succ k ih => rw [stepN_succ, ih, stepN_succ]

theorem stepN_add (g : GraphL) (endN : String) (mode : Mode) (j k : ℕ)
    (s : EngineState) :
    stepN g endN mode (j + k) s = stepN g endN mode k (stepN g endN mode j s) := by
  induction j generalizing s with
  | zero => rw [Nat.zero_add]; rfl
  | succ j ih =>
    rw [Nat.succ_add, stepN_succ, stepN_succ, ih]

theorem stepN_finished (g : GraphL) (endN : String) (mode : Mode) (k : ℕ)
    (s : EngineState) (h : s.is_finished = true) : stepN g endN mode k s = s := by
  induction k with
  | zero => rfl
  | succ k ih => rw [stepN_succ, stepE_finished_inert g endN mode s h, ih]

theorem stepN_finished_le (g : GraphL) (endN : String) (mode : Mode)
    {j k : ℕ} (hjk : j ≤ k) (s : EngineState)
    (h : (stepN g endN mode j s).is_finished = true) :
    (stepN g endN mode k s).is_finished = true := by
  obtain ⟨d, rfl⟩ := Nat.exists_eq_add_of_le hjk
  rw [stepN_add, stepN_finished g endN mode d _ h]
  exact h

/-! ### The string comparison -/

theorem charListLeB_refl : ∀ l : List Char, charListLeB l l = true := by
  intro l
  induction l with
  | nil => rfl
  | cons c cs ih =>
    unfold charListLeB
    rw [if_neg (lt_irrefl c), if_neg (lt_irrefl c)]
    exact ih

theorem charListLeB_total : ∀ l1 l2 : List Char,
    charListLeB l1 l2 = true ∨ charListLeB l2 l1 = true := by
  intro l1
  induction l1 with
  | nil => intro l2; exact Or.inl rfl
  | cons c cs ih =>
    intro l2
    cases l2 with
    | nil => exact Or.inr rfl
    | cons d ds =>
      simp only [charListLeB]
      rcases lt_trichotomy c d with hcd | rfl | hcd
      · simp only [if_pos hcd]
        exact Or.inl trivial
      · simp only [if_neg (lt_irrefl c)]
        exact ih ds
      · simp only [if_pos hcd, if_neg (not_lt.mpr (le_of_lt hcd))]
        exact Or.inr trivial

theorem charListLeB_trans : ∀ l1 l2 l3 : List Char,
    charListLeB l1 l2 = true → charListLeB l2 l3 = true →
      charListLeB l1 l3 = true := by
  intro l1
  induction l1 with
  | nil => intro l2 l3 _ _; rfl
  | cons c cs ih =>
    intro l2 l3 h12 h23
    cases l2 with
    | nil => exact absurd h12 (by simp [charListLeB])
    | cons d ds =>
      cases l3 with
      | nil => exact absurd h23 (by simp [charListLeB])
      | cons e es =>
        simp only [charListLeB] at h12 h23 ⊢
        rcases lt_trichotomy c d with hcd | rfl | hcd
        · rcases lt_trichotomy d e with hde | rfl | hde
          · simp only [if_pos (hcd.trans hde)]
          · simp only [if_pos hcd]
          · simp only [if_pos hde, if_neg (not_lt.mpr (le_of_lt hde))] at h23
            cases h23
        · rcases lt_trichotomy c e with hce | rfl | hce
          · simp only [if_pos hce]
          · simp only [if_neg (lt_irrefl c)] at h12 h23 ⊢
            exact ih ds es h12 h23
          · simp only [if_pos hce, if_neg (not_lt.mpr (le_of_lt hce))] at h23
            cases h23
        · simp only [if_pos hcd, if_neg (not_lt.mpr (le_of_lt hcd))] at h12
          cases h12

theorem charListLeB_antisymm : ∀ l1 l2 : List Char,
    charListLeB l1 l2 = true → charListLeB l2 l1 = true → l1 = l2 := by
  intro l1
  induction l1 with
  | nil =>
    intro l2 _ h21
    cases l2 with
    | nil => rfl
    | cons d ds => exact absurd h21 (by simp [charListLeB])
  | cons c cs ih =>
    intro l2 h12 h21
    cases l2 with
    | nil => exact absurd h12 (by simp [charListLeB])
    | cons d ds =>
      simp only [charListLeB] at h12 h21
      rcases lt_trichotomy c d with hcd | rfl | hcd
      · simp only [if_pos hcd, if_neg (not_lt.mpr (le_of_lt hcd))] at h21
        cases h21
      · simp only [if_neg (lt_irrefl c)] at h12 h21
        rw [ih ds h12 h21]
      · simp only [if_pos hcd, if_neg (not_lt.mpr (le_of_lt hcd))] at h12
        cases h12

theorem strLe_refl (x : String) : strLe x x :=
  charListLeB_refl x.data

theorem strLe_total (x y : String) : strLe x y ∨ strLe y x :=
  charListLeB_total x.data y.data

theorem strLe_trans {x y z : String} (h1 : strLe x y) (h2 : strLe y z) :
    strLe x z :=
  charListLeB_trans x.data y.data z.data h1 h2

theorem strLe_antisymm {x y : String} (h1 : strLe x y) (h2 : strLe y x) :
    x = y := by
  have hd := charListLeB_antisymm x.data y.data h1 h2
  cases x with
  | mk l1 =>
    cases y with
    | mk l2 =>
      simp only at hd
      rw [hd]

instance : IsTotal String strLe :=
  ⟨strLe_total⟩

instance : IsTrans String strLe :=
  ⟨fun _ _ _ => strLe_trans⟩

/-! ### The order on priority-queue entries -/

theorem entryLe_refl (e : Dist × String) : entryLe e e :=
  Or.inr ⟨rfl, strLe_refl _⟩

instance : IsTotal (Dist × String) entryLe where
  total e f := by
    rcases lt_trichotomy e.1 f.1 with h | h | h
    · exact Or.inl (Or.inl h)
    · rcases strLe_total e.2 f.2 with h2 | h2
      · exact Or.inl (Or.inr ⟨h, h2⟩)
      · exact Or.inr (Or.inr ⟨h.symm, h2⟩)
    · exact Or.inr (Or.inl h)

instance : IsTrans (Dist × String) entryLe where
  trans e f k hef hfk := by
    rcases hef with h1 | ⟨h1, h1'⟩ <;> rcases hfk with h2 | ⟨h2, h2'⟩
    · exact Or.inl (h1.trans h2)
    · exact Or.inl (h2 ▸ h1)
    · exact Or.inl (h1 ▸ h2)
    · exact Or.inr ⟨h1.trans h2, strLe_trans h1' h2'⟩

theorem entryLe_antisymm_nodes {e f : Dist × String} (hef : entryLe e f)
    (hfe : entryLe f e) : e.1 = f.1 ∧ e.2 = f.2 := by
  rcases hef with h1 | ⟨h1, h1'⟩ <;> rcases hfe with h2 | ⟨h2, h2'⟩
  · exact absurd (h1.trans h2) (lt_irrefl _)
  · exact absurd h1 (h2 ▸ lt_irrefl _)
  · exact absurd h2 (h1 ▸ lt_irrefl _)
  · exact ⟨h1, strLe_antisymm h1' h2'⟩

theorem pqPush_sorted {pq : List (Dist × String)} (e : Dist × String)
    (h : List.Sorted entryLe pq) : List.Sorted entryLe (pqPush e pq) :=
  List.Sorted.orderedInsert e pq h

theorem mem_pqPush {pq : List (Dist × String)} {e f : Dist × String} :
    f ∈ pqPush e pq ↔ f = e ∨ f ∈ pq := by
  unfold pqPush
  rw [(List.perm_orderedInsert entryLe e pq).mem_iff, List.mem_cons]

/-! ### The lazy-deletion pop -/

theorem staleB_true_iff (visited : List String) (e : Dist × String) :
    staleB visited e = true ↔ e.2 ∈ visited := by
  simp [staleB]

theorem dropWhile_head_false {α : Type} (p : α → Bool) (l : List α) (a : α)
    (t : List α) (h : l.dropWhile p = a :: t) : p a = false := by
  induction l with
  | nil => simp at h
  | cons x xs ih =>
    rw [List.dropWhile_cons] at h
    split at h
    · exact ih h
    · next hx =>
      injection h with h1 _
      subst h1
      simpa using hx

theorem popFresh_none (visited : List String) (pq : List (Dist × String))
    (h : popFresh visited pq = none) : ∀ e ∈ pq, e.2 ∈ visited := by
  unfold popFresh at h
  intro e he
  rcases hd : pq.dropWhile (staleB visited) with _ | ⟨f, rest⟩
  · rw [List.dropWhile_eq_nil_iff] at hd
    exact (staleB_true_iff visited e).mp (hd e he)
  · rw [hd] at h
    exact absurd h (by simp)

theorem popFresh_some (visited : List String) (pq : List (Dist × String))
    (e : Dist × String) (rest : List (Dist × String))
    (h : popFresh visited pq = some (e, rest)) :
    pq = pq.takeWhile (staleB visited) ++ e :: rest ∧ e.2 ∉ visited := by
  unfold popFresh at h
  rcases hd : pq.dropWhile (staleB visited) with _ | ⟨f, rest'⟩
  · rw [hd] at h
    exact absurd h (by simp)
  · rw [hd] at h
    have hpair : (f, rest') = (e, rest) := Option.some.inj h
    have hfeq : f = e := congrArg Prod.fst hpair
    have hreq : rest' = rest := congrArg Prod.snd hpair
    subst hfeq
    subst hreq
    constructor
    · rw [← hd, List.takeWhile_append_dropWhile]
    · intro hmem
      have hfalse := dropWhile_head_false (staleB visited) pq f rest' hd
      rw [← staleB_true_iff visited f] at hmem
      rw [hmem] at hfalse
      cases hfalse

theorem popFresh_some_mem (visited : List String) (pq : List (Dist × String))
    (e : Dist × String) (rest : List (Dist × String))
    (h : popFresh visited pq = some (e, rest)) : e ∈ pq := by
  obtain ⟨hsplit, _⟩ := popFresh_some visited pq e rest h
  rw [hsplit]
  exact List.mem_append_right _ (List.mem_cons_self _ _)

theorem popFresh_rest_sublist (visited : List String)
    (pq : List (Dist × String)) (e : Dist × String)
    (rest : List (Dist × String)) (h : popFresh visited pq = some (e, rest)) :
    rest.Sublist pq := by
  obtain ⟨hsplit, _⟩ := popFresh_some visited pq e rest h
  rw [hsplit]
  exact (List.sublist_cons_self e rest).trans (List.sublist_append_right _ _)

theorem popFresh_fresh_survives (visited : List String)
    (pq : List (Dist × String)) (e : Dist × String)
    (rest : List (Dist × String)) (h : popFresh visited pq = some (e, rest))
    (f : Dist × String) (hf : f ∈ pq) (hfresh : f.2 ∉ visited)
    (hne : f.2 ≠ e.2) : f ∈ rest := by
  obtain ⟨hsplit, _⟩ := popFresh_some visited pq e rest h
  rw [hsplit] at hf
  rcases List.mem_append.mp hf with hf | hf
  · exact absurd ((staleB_true_iff visited f).mp (List.mem_takeWhile_imp hf)) hfresh
  · rcases List.mem_cons.mp hf with rfl | hf
    · exact absurd rfl hne
    · exact hf

/-! ### The linear minimum scan -/

theorem pyMin_nil (key : String → Dist) : pyMin key [] = none := rfl

theorem pyMin_cons (key : String → Dist) (x : String) (xs : List String) :
    pyMin key (x :: xs) =
      some (xs.foldl (fun b y => if key y < key b then y else b) x) := rfl

theorem pyMinFold_spec (key : String → Dist) (l : List String) (b : String) :
    (l.foldl (fun b y => if key y < key b then y else b) b = b ∨
      l.foldl (fun b y => if key y < key b then y else b) b ∈ l) ∧
      key (l.foldl (fun b y => if key y < key b then y else b) b) ≤ key b ∧
      ∀ y ∈ l, key (l.foldl (fun b y => if key y < key b then y else b) b) ≤ key y := by
  induction l generalizing b with
  | nil => exact ⟨Or.inl rfl, le_refl _, by simp⟩
  | cons y l ih =>
    rw [List.foldl_cons]
    by_cases hyb : key y < key b
    · rw [if_pos hyb]
      obtain ⟨hmem, hle, hall⟩ := ih y
      refine ⟨?_, hle.trans (le_of_lt hyb), ?_⟩
      · rcases hmem with h | h
        · exact Or.inr (by rw [h]; exact List.mem_cons_self y l)
        · exact Or.inr (List.mem_cons_of_mem y h)
      · intro z hz
        rcases List.mem_cons.mp hz with rfl | hz
        · exact hle
        · exact hall z hz
    · rw [if_neg hyb]
      obtain ⟨hmem, hle, hall⟩ := ih b
      refine ⟨?_, hle, ?_⟩
      · rcases hmem with h | h
        · exact Or.inl h
        · exact Or.inr (List.mem_cons_of_mem y h)
      · intro z hz
        rcases List.mem_cons.mp hz with rfl | hz
        · exact hle.trans (not_lt.mp hyb)
        · exact hall z hz

theorem pyMinFold_lex (key : String → Dist) (l : List String) (b : String)
    (hs : List.Sorted strLe (b :: l)) :
    ∀ v, (v = b ∨ v ∈ l) →
      key (l.foldl (fun b y => if key y < key b then y else b) b) < key v ∨
        (key (l.foldl (fun b y => if key y < key b then y else b) b) = key v ∧
          strLe (l.foldl (fun b y => if key y < key b then y else b) b) v) := by
  induction l generalizing b with
  | nil =>
    intro v hv
    rcases hv with rfl | hv
    · exact Or.inr ⟨rfl, strLe_refl _⟩
    · exact absurd hv (List.not_mem_nil v)
  | cons y l ih =>
    rw [List.foldl_cons]
    obtain ⟨hb, hyl⟩ := List.sorted_cons.mp hs
    obtain ⟨hy, hl⟩ := List.sorted_cons.mp hyl
    intro v hv
    by_cases hyb : key y < key b
    · rw [if_pos hyb]
      have P := ih y hyl
      rcases hv with rfl | hv
      · rcases P y (Or.inl rfl) with h | ⟨h1, _⟩
        · exact Or.inl (h.trans hyb)
        · exact Or.inl (h1 ▸ hyb)
      · rcases List.mem_cons.mp hv with rfl | hv
        · exact P v (Or.inl rfl)
        · exact P v (Or.inr hv)
    · rw [if_neg hyb]
      have hsort' : List.Sorted strLe (b :: l) :=
        List.sorted_cons.mpr ⟨fun c hc => hb c (List.mem_cons_of_mem y hc), hl⟩
      have P := ih b hsort'
      have hby : key b ≤ key y := not_lt.mp hyb
      rcases hv with rfl | hv
      · exact P v (Or.inl rfl)
      · rcases List.mem_cons.mp hv with rfl | hv
        · rcases P b (Or.inl rfl) with h | ⟨h1, h2⟩
          · exact Or.inl (lt_of_lt_of_le h hby)
          · rcases lt_or_eq_of_le hby with h3 | h3
            · exact Or.inl (h1 ▸ h3)
            · exact Or.inr ⟨h1.trans h3, strLe_trans h2 (hb v (List.mem_cons_self v l))⟩
        · exact P v (Or.inr hv)

theorem pyMin_none_iff (key : String → Dist) (l : List String) :
    pyMin key l = none ↔ l = [] := by
  cases l with
  | nil => simp [pyMin_nil]
  | cons x xs => simp [pyMin_cons]

theorem pyMin_mem (key : String → Dist) (l : List String) (u : String)
    (h : pyMin key l = some u) : u ∈ l := by
  cases l with
  | nil => exact absurd h (by simp [pyMin_nil])
  | cons x xs =>
    rw [pyMin_cons] at h
    obtain rfl := Option.some.inj h
    rcases (pyMinFold_spec key xs x).1 with h | h
    · rw [h]; exact List.mem_cons_self x xs
    · exact List.mem_cons_of_mem x h

theorem pyMin_le_all (key : String → Dist) (l : List String) (u : String)
    (h : pyMin key l = some u) : ∀ v ∈ l, key u ≤ key v := by
  cases l with
  | nil => exact absurd h (by simp [pyMin_nil])
  | cons x xs =>
    rw [pyMin_cons] at h
    obtain rfl := Option.some.inj h
    obtain ⟨_, hle, hall⟩ := pyMinFold_spec key xs x
    intro v hv
    rcases List.mem_cons.mp hv with rfl | hv
    · exact hle
    · exact hall v hv

theorem pyMin_lex (key : String → Dist) (l : List String) (u : String)
    (hs : List.Sorted strLe l) (h : pyMin key l = some u) :
    ∀ v ∈ l, key u < key v ∨ (key u = key v ∧ strLe u v) := by
  cases l with
  | nil => exact absurd h (by simp [pyMin_nil])
  | cons x xs =>
    rw [pyMin_cons] at h
    obtain rfl := Option.some.inj h
    intro v hv
    rcases List.mem_cons.mp hv with h1 | h1
    · exact pyMinFold_lex key xs x hs v (Or.inl h1)
    · exact pyMinFold_lex key xs x hs v (Or.inr h1)

theorem popFresh_min (visited : List String) (pq : List (Dist × String))
    (e : Dist × String) (rest : List (Dist × String))
    (hsorted : List.Sorted entryLe pq)
    (h : popFresh visited pq = some (e, rest)) :
    ∀ f ∈ pq, f.2 ∉ visited → entryLe e f := by
  intro f hf hfresh
  obtain ⟨hsplit, _⟩ := popFresh_some visited pq e rest h
  rw [hsplit] at hf
  rcases List.mem_append.mp hf with hf | hf
  · exact absurd ((staleB_true_iff visited f).mp (List.mem_takeWhile_imp hf)) hfresh
  · have hsorted' : List.Sorted entryLe (e :: rest) := by
      refine hsorted.sublist ?_
      rw [hsplit]
      exact (List.sublist_append_right _ _)
    rcases List.mem_cons.mp hf with rfl | hf
    · exact entryLe_refl f
    · exact (List.sorted_cons.mp hsorted').1 f hf

/-! ### The run invariant -/

theorem lookup_mem {g : GraphL} {u : String} {l : List (String × ℕ)}
    (h : List.lookup u g = some l) : (u, l) ∈ g := by
  induction g with
  | nil => simp [List.lookup] at h
  | cons p g ih =>
    rw [List.lookup_cons] at h
    split at h
    · next heq =>
      obtain rfl := Option.some.inj h
      have hup : u = p.1 := by simpa using heq
      have hpe : (u, p.2) = p := by rw [hup]
      rw [hpe]
      exact List.mem_cons_self p g
    · exact List.mem_cons_of_mem p (ih h)

theorem wf_adj {g : GraphL} (hWf : Wf g) {u : String} {e : String × ℕ}
    (he : e ∈ adjOf g u) : e.1 ∈ nodesOf g := by
  unfold adjOf at he
  rcases hl : List.lookup u g with _ | l
  · rw [hl] at he
    exact absurd he (List.not_mem_nil e)
  · rw [hl] at he
    exact hWf.2 (u, l) (lookup_mem hl) e he

theorem relaxOne_inv (g : GraphL) (a b : String) (mode : Mode) (u : String)
    (du : Dist) (s : EngineState) (e : String × ℕ)
    (hInv : Inv g a b mode s) (hu_vis : u ∈ s.visited)
    (hdu : du ≠ ⊤) (hn : e.1 ∈ nodesOf g) (hfin : s.is_finished = false) :
    Inv g a b mode (relaxOne mode u du s e) := by
  unfold relaxOne
  split
  · exact hInv
  · split
    · next hn_nvis himp =>
      -- the improving branch: update distance, predecessor and (heap) queue
      have hna : e.1 ≠ a := by
        intro hcon
        rw [hcon, hInv.dist_start] at himp
        exact absurd himp (by simp)
      have hfin_new : du + (e.2 : Dist) ≠ ⊤ := by
        intro hcon
        rw [WithTop.add_eq_top] at hcon
        rcases hcon with h | h
        · exact hdu h
        · exact WithTop.coe_ne_top h
      have hu_fin : s.dist u ≠ ⊤ := hInv.visited_finite u hu_vis
      have hu_ne : u ≠ e.1 := fun hcon => hn_nvis (hcon ▸ hu_vis)
      have hdist_le : ∀ v, Function.update s.dist e.1 (du + (e.2 : Dist)) v ≤ s.dist v := by
        intro v
        rw [Function.update_apply]
        split
        · next hv => rw [hv]; exact le_of_lt himp
        · exact le_refl _
      refine ⟨?_, ?_, ?_, ?_, ?_, ?_, ?_, ?_, ?_, ?_, ?_, ?_, ?_, ?_, ?_⟩
      · exact hInv.visited_nodes
      · exact hInv.visited_nodup
      · dsimp only
        intro v hv
        rw [Function.update_apply]
        split
        · exact hfin_new
        · exact hInv.visited_finite v hv
      · dsimp only
        rw [Function.update_noteq (Ne.symm hna)]
        exact hInv.dist_start
      · dsimp only
        intro v hv
        rw [Function.update_apply] at hv
        by_cases hve : v = e.1
        · exact Or.inr (hve ▸ hn)
        · rw [if_neg hve] at hv
          exact hInv.finite_nodes v hv
      · dsimp only
        split
        · exact pqPush_sorted _ hInv.pq_sorted
        · exact hInv.pq_sorted
      · dsimp only
        intro f hf
        split at hf
        · rcases mem_pqPush.mp hf with rfl | hf
          · refine ⟨hn, ?_, hfin_new⟩
            dsimp only
            rw [Function.update_same]
          · obtain ⟨h1, h2, h3⟩ := hInv.pq_entries f hf
            exact ⟨h1, (hdist_le f.2).trans h2, h3⟩
        · obtain ⟨h1, h2, h3⟩ := hInv.pq_entries f hf
          exact ⟨h1, (hdist_le f.2).trans h2, h3⟩
      · dsimp only
        intro hmode v hv hnvis hvfin
        rw [if_pos hmode]
        by_cases hve : v = e.1
        · have hupd : Function.update s.dist e.1 (du + (e.2 : Dist)) v = du + (e.2 : Dist) := by
            rw [hve, Function.update_same]
          rw [hupd, hve]
          exact mem_pqPush.mpr (Or.inl rfl)
        · have hupd : Function.update s.dist e.1 (du + (e.2 : Dist)) v = s.dist v :=
            Function.update_noteq hve _ _
          rw [hupd] at hvfin ⊢
          exact mem_pqPush.mpr (Or.inr (hInv.pq_fresh hmode v hv hnvis hvfin))
      · dsimp only
        intro hmode v
        exact hInv.unvisited_iff hmode v
      · exact hInv.unvisited_nodup
      · dsimp only
        intro v u' hprev
        rw [Function.update_apply] at hprev
        by_cases hve : v = e.1
        · rw [if_pos hve] at hprev
          obtain rfl := Option.some.inj hprev
          refine ⟨hu_vis, ?_⟩
          rw [Function.update_noteq hu_ne]
          exact hu_fin
        · rw [if_neg hve] at hprev
          obtain ⟨h1, h2⟩ := hInv.prev_visited v u' hprev
          refine ⟨h1, ?_⟩
          have hu'e : u' ≠ e.1 := by
            intro hcon
            rw [hcon] at h1
            exact hn_nvis h1
          rw [Function.update_noteq hu'e]
          exact h2
      · dsimp only
        intro v u' hprev hv
        have hve : v ≠ e.1 := fun hcon => hn_nvis (hcon ▸ hv)
        rw [Function.update_noteq hve] at hprev
        exact hInv.prev_idx v u' hprev hv
      · dsimp only
        intro v hva hvfin
        by_cases hve : v = e.1
        · rw [Function.update_apply, if_pos hve]
          simp
        · rw [Function.update_noteq hve] at hvfin
          rw [Function.update_noteq hve]
          exact hInv.prev_none v hva hvfin
      · dsimp only
        rw [Function.update_noteq (Ne.symm hna)]
        exact hInv.prev_start
      · dsimp only
        rw [hfin]
        intro hcon
        cases hcon
    · exact hInv

theorem relaxList_inv (g : GraphL) (a b : String) (mode : Mode) (u : String)
    (du : Dist) (l : List (String × ℕ)) (s : EngineState)
    (hInv : Inv g a b mode s) (hu_vis : u ∈ s.visited)
    (hdu : du ≠ ⊤) (hl : ∀ e ∈ l, e.1 ∈ nodesOf g)
    (hfin : s.is_finished = false) :
    Inv g a b mode (l.foldl (relaxOne mode u du) s) := by
  induction l generalizing s with
  | nil => exact hInv
  | cons e l ih =>
    rw [List.foldl_cons]
    have h1 := relaxOne_inv g a b mode u du s e hInv hu_vis hdu
      (hl e (List.mem_cons_self e l)) hfin
    refine ih (relaxOne mode u du s e) h1 ?_ (fun f hf => hl f (List.mem_cons_of_mem e hf)) ?_
    · rw [relaxOne_visited]
      exact hu_vis
    · rw [(relaxOne_flags mode u du s e).2.1]
      exact hfin

theorem relaxAll_inv (g : GraphL) (a b : String) (mode : Mode) (u : String)
    (du : Dist) (s : EngineState) (hWf : Wf g)
    (hInv : Inv g a b mode s) (hu_vis : u ∈ s.visited)
    (hdu : du ≠ ⊤) (hfin : s.is_finished = false) :
    Inv g a b mode (relaxAll g mode u du s) :=
  relaxList_inv g a b mode u du (adjOf g u) s hInv hu_vis hdu
    (fun _ he => wf_adj hWf he) hfin

/-! ### Selection facts derived from the invariant -/

theorem heap_select (g : GraphL) (a b : String) (s : EngineState)
    (hInv : Inv g a b Mode.heap s) (d : Dist) (u : String)
    (rest : List (Dist × String))
    (h : popFresh s.visited s.pq = some ((d, u), rest)) :
    u ∈ nodesOf g ∧ u ∉ s.visited ∧ d = s.dist u ∧ s.dist u ≠ ⊤ ∧
      ∀ v ∈ nodesOf g, v ∉ s.visited → s.dist v ≠ ⊤ →
        entryLe (s.dist u, u) (s.dist v, v) := by
  obtain ⟨hsplit, hfresh0⟩ := popFresh_some s.visited s.pq (d, u) rest h
  have hmem : (d, u) ∈ s.pq := popFresh_some_mem _ _ _ _ h
  obtain ⟨hu_node, hd_le, hd_top⟩ := hInv.pq_entries (d, u) hmem
  have hu_fin : s.dist u ≠ ⊤ := by
    intro hcon
    rw [hcon] at hd_le
    exact hd_top (top_le_iff.mp hd_le)
  have hfresh_entry : (s.dist u, u) ∈ s.pq :=
    hInv.pq_fresh rfl u hu_node hfresh0 hu_fin
  have hmin := popFresh_min s.visited s.pq (d, u) rest hInv.pq_sorted h
  have hdu : d = s.dist u := by
    rcases hmin (s.dist u, u) hfresh_entry hfresh0 with h1 | ⟨h1, _⟩
    · exact absurd h1 (not_lt.mpr hd_le)
    · exact h1
  refine ⟨hu_node, hfresh0, hdu, hu_fin, ?_⟩
  intro v hv hnv hvf
  have hve : (s.dist v, v) ∈ s.pq := hInv.pq_fresh rfl v hv hnv hvf
  have hle := hmin (s.dist v, v) hve hnv
  rw [hdu] at hle
  exact hle

theorem heap_exhausted (g : GraphL) (a b : String) (s : EngineState)
    (hInv : Inv g a b Mode.heap s) (h : popFresh s.visited s.pq = none) :
    ∀ v ∈ nodesOf g, v ∉ s.visited → s.dist v = ⊤ := by
  intro v hv hnv
  by_contra hvf
  have hentry := hInv.pq_fresh rfl v hv hnv hvf
  exact hnv (popFresh_none s.visited s.pq h (s.dist v, v) hentry)

/-! ### Bookkeeping for settling a node -/

theorem nodup_append_one (visited : List String) (u : String)
    (hnodup : visited.Nodup) (hu : u ∉ visited) : (visited ++ [u]).Nodup := by
  rw [List.nodup_append]
  refine ⟨hnodup, List.nodup_singleton u, ?_⟩
  intro x hx hy
  rw [List.mem_singleton.mp hy] at hx
  exact hu hx

theorem indexOf_append_lt (visited : List String) (u u' v : String)
    (hu : u ∉ visited) (hu' : u' ∈ visited) (hv : v ∈ visited ++ [u])
    (hvlt : v ∈ visited → List.indexOf u' visited < List.indexOf v visited) :
    List.indexOf u' (visited ++ [u]) < List.indexOf v (visited ++ [u]) := by
  rw [List.indexOf_append_of_mem hu']
  rcases List.mem_append.mp hv with hv | hv
  · rw [List.indexOf_append_of_mem hv]
    exact hvlt hv
  · have hveq : v = u := List.mem_singleton.mp hv
    rw [hveq, List.indexOf_append_of_not_mem hu]
    calc List.indexOf u' visited < visited.length := List.indexOf_lt_length.mpr hu'
      _ ≤ visited.length + List.indexOf u [u] := Nat.le_add_right _ _

theorem settle_inv_heap (g : GraphL) (a b : String) (s : EngineState)
    (d : Dist) (u : String) (rest : List (Dist × String))
    (hInv : Inv g a b Mode.heap s)
    (hp : popFresh s.visited s.pq = some ((d, u), rest))
    (hnfin : s.is_finished = false) :
    Inv g a b Mode.heap
      { s with pq := rest, current := some u, visited := s.visited ++ [u] } := by
  obtain ⟨hu_node, hu_nvis, hdu, hu_fin, _⟩ := heap_select g a b s hInv d u rest hp
  refine ⟨?_, ?_, ?_, ?_, ?_, ?_, ?_, ?_, ?_, ?_, ?_, ?_, ?_, ?_, ?_⟩
  · dsimp only
    intro v hv
    rcases List.mem_append.mp hv with hv | hv
    · exact hInv.visited_nodes v hv
    · rw [List.mem_singleton.mp hv]
      exact hu_node
  · exact nodup_append_one s.visited u hInv.visited_nodup hu_nvis
  · dsimp only
    intro v hv
    rcases List.mem_append.mp hv with hv | hv
    · exact hInv.visited_finite v hv
    · rw [List.mem_singleton.mp hv]
      exact hu_fin
  · exact hInv.dist_start
  · exact hInv.finite_nodes
  · exact hInv.pq_sorted.sublist (popFresh_rest_sublist _ _ _ _ hp)
  · dsimp only
    intro e he
    exact hInv.pq_entries e ((popFresh_rest_sublist _ _ _ _ hp).subset he)
  · dsimp only
    intro _ v hv hnvis hvfin
    have hv1 : v ∉ s.visited := fun h => hnvis (List.mem_append_left _ h)
    have hvne : v ≠ u := by
      intro hcon
      exact hnvis (by rw [hcon]; exact List.mem_append_right _ (List.mem_singleton_self u))
    exact popFresh_fresh_survives s.visited s.pq (d, u) rest hp (s.dist v, v)
      (hInv.pq_fresh rfl v hv hv1 hvfin) hv1 hvne
  · intro hmode
    exact Mode.noConfusion hmode
  · exact hInv.unvisited_nodup
  · dsimp only
    intro v u' hprev
    obtain ⟨h1, h2⟩ := hInv.prev_visited v u' hprev
    exact ⟨List.mem_append_left _ h1, h2⟩
  · dsimp only
    intro v u' hprev hv
    exact indexOf_append_lt s.visited u u' v hu_nvis
      (hInv.prev_visited v u' hprev).1 hv
      (fun hvv => hInv.prev_idx v u' hprev hvv)
  · exact hInv.prev_none
  · exact hInv.prev_start
  · dsimp only
    rw [hnfin]
    intro hcon
    cases hcon

theorem settle_inv_lin (g : GraphL) (a b : String) (s : EngineState)
    (u : String) (hInv : Inv g a b Mode.lin s)
    (hu : pyMin s.dist s.unvisited = some u) (hu_fin : s.dist u ≠ ⊤)
    (hnfin : s.is_finished = false) :
    Inv g a b Mode.lin
      { s with unvisited := s.unvisited.erase u,
               current := some u, visited := s.visited ++ [u] } := by
  have hu_mem : u ∈ s.unvisited := pyMin_mem s.dist s.unvisited u hu
  obtain ⟨hu_node, hu_nvis⟩ := (hInv.unvisited_iff rfl u).mp hu_mem
  refine ⟨?_, ?_, ?_, ?_, ?_, ?_, ?_, ?_, ?_, ?_, ?_, ?_, ?_, ?_, ?_⟩
  · dsimp only
    intro v hv
    rcases List.mem_append.mp hv with hv | hv
    · exact hInv.visited_nodes v hv
    · rw [List.mem_singleton.mp hv]
      exact hu_node
  · exact nodup_append_one s.visited u hInv.visited_nodup hu_nvis
  · dsimp only
    intro v hv
    rcases List.mem_append.mp hv with hv | hv
    · exact hInv.visited_finite v hv
    · rw [List.mem_singleton.mp hv]
      exact hu_fin
  · exact hInv.dist_start
  · exact hInv.finite_nodes
  · exact hInv.pq_sorted
  · exact hInv.pq_entries
  · intro hmode
    exact Mode.noConfusion hmode
  · dsimp only
    intro _ v
    rw [List.Nodup.mem_erase_iff hInv.unvisited_nodup]
    rw [hInv.unvisited_iff rfl v]
    constructor
    · rintro ⟨hvne, hvnode, hvnvis⟩
      refine ⟨hvnode, ?_⟩
      intro hcon
      rcases List.mem_append.mp hcon with hcon | hcon
      · exact hvnvis hcon
      · exact hvne (List.mem_singleton.mp hcon)
    · rintro ⟨hvnode, hvnvis⟩
      refine ⟨?_, hvnode, ?_⟩
      · intro hcon
        exact hvnvis (by rw [hcon]; exact List.mem_append_right _ (List.mem_singleton_self u))
      · intro hcon
        exact hvnvis (List.mem_append_left _ hcon)
  · exact List.Nodup.erase u hInv.unvisited_nodup
  · dsimp only
    intro v u' hprev
    obtain ⟨h1, h2⟩ := hInv.prev_visited v u' hprev
    exact ⟨List.mem_append_left _ h1, h2⟩
  · dsimp only
    intro v u' hprev hv
    exact indexOf_append_lt s.visited u u' v hu_nvis
      (hInv.prev_visited v u' hprev).1 hv
      (fun hvv => hInv.prev_idx v u' hprev hvv)
  · exact hInv.prev_none
  · exact hInv.prev_start
  · dsimp only
    rw [hnfin]
    intro hcon
    cases hcon

theorem finish_inv (g : GraphL) (a b : String) (mode : Mode) (s : EngineState)
    (hInv : Inv g a b mode s) (hend : s.dist b ≠ ⊤ → b ∈ s.visited) :
    Inv g a b mode (finishS s) := by
  refine ⟨hInv.visited_nodes, hInv.visited_nodup, hInv.visited_finite,
    hInv.dist_start, hInv.finite_nodes, hInv.pq_sorted, hInv.pq_entries,
    hInv.pq_fresh, hInv.unvisited_iff, hInv.unvisited_nodup, hInv.prev_visited,
    hInv.prev_idx, hInv.prev_none, hInv.prev_start, ?_⟩
  intro _ hfin
  exact hend hfin

theorem stepE_inv (g : GraphL) (a b : String) (mode : Mode) (s : EngineState)
    (hWf : Wf g) (hb : b ∈ nodesOf g) (hInv : Inv g a b mode s) :
    Inv g a b mode (stepE g b mode s) := by
  unfold stepE
  split
  · exact hInv
  · next hguard =>
    have hnfin : s.is_finished = false := by
      rcases Bool.eq_false_or_eq_true s.is_finished with h | h
      · exact absurd (Or.inr h) hguard
      · exact h
    cases mode with
    | heap =>
      dsimp only
      cases hp : popFresh s.visited s.pq with
      | none =>
        refine ⟨hInv.visited_nodes, hInv.visited_nodup, hInv.visited_finite,
          hInv.dist_start, hInv.finite_nodes, List.sorted_nil, ?_, ?_,
          hInv.unvisited_iff, hInv.unvisited_nodup, hInv.prev_visited,
          hInv.prev_idx, hInv.prev_none, hInv.prev_start, ?_⟩
        · intro e he
          exact absurd he (List.not_mem_nil e)
        · intro _ v hv hnvis hvfin
          exact absurd (heap_exhausted g a b s hInv hp v hv hnvis) hvfin
        · intro _ hbfin
          by_contra hbv
          exact hbfin (heap_exhausted g a b s hInv hp b hb hbv)
      | some pr =>
        obtain ⟨e, rest⟩ := pr
        obtain ⟨d, u⟩ := e
        dsimp only
        have hs1 := settle_inv_heap g a b s d u rest hInv hp hnfin
        obtain ⟨_, _, hdu, hu_fin, _⟩ := heap_select g a b s hInv d u rest hp
        split
        · next heq =>
          refine finish_inv g a b Mode.heap _ hs1 ?_
          intro _
          exact List.mem_append_right _ (by rw [← heq]; exact List.mem_singleton_self u)
        · refine relaxAll_inv g a b Mode.heap u d _ hWf hs1 ?_ ?_ hnfin
          · exact List.mem_append_right _ (List.mem_singleton_self u)
          · rw [hdu]
            exact hu_fin
    | lin =>
      dsimp only
      cases hu : pyMin s.dist s.unvisited with
      | none =>
        have hempty : s.unvisited = [] := (pyMin_none_iff s.dist s.unvisited).mp hu
        refine finish_inv g a b Mode.lin s hInv ?_
        intro _
        by_contra hbv
        have hbu : b ∈ s.unvisited := (hInv.unvisited_iff rfl b).mpr ⟨hb, hbv⟩
        rw [hempty] at hbu
        exact List.not_mem_nil b hbu
      | some u =>
        dsimp only
        split
        · next htop =>
          refine finish_inv g a b Mode.lin s hInv ?_
          intro hbfin
          by_contra hbv
          have hbu : b ∈ s.unvisited := (hInv.unvisited_iff rfl b).mpr ⟨hb, hbv⟩
          have hle := pyMin_le_all s.dist s.unvisited u hu b hbu
          rw [htop] at hle
          exact hbfin (top_le_iff.mp hle)
        · next htop =>
          have hs1 := settle_inv_lin g a b s u hInv hu htop hnfin
          split
          · next heq =>
            refine finish_inv g a b Mode.lin _ hs1 ?_
            intro _
            exact List.mem_append_right _ (by rw [← heq]; exact List.mem_singleton_self u)
          · refine relaxAll_inv g a b Mode.lin u (s.dist u) _ hWf hs1 ?_ htop hnfin
            exact List.mem_append_right _ (List.mem_singleton_self u)

theorem init_inv (g : GraphL) (a b : String) (mode : Mode) (t : ℕ)
    (ord : List String) (ha : a ∈ nodesOf g) (hord : PermOf g ord) :
    Inv g a b mode (startE a mode t (resetE a ord)) := by
  unfold startE resetE
  rw [if_neg (by simp)]
  refine ⟨?_, ?_, ?_, ?_, ?_, ?_, ?_, ?_, ?_, ?_, ?_, ?_, ?_, ?_, ?_⟩
  · intro v hv
    exact absurd hv (List.not_mem_nil v)
  · exact List.nodup_nil
  · intro v hv
    exact absurd hv (List.not_mem_nil v)
  · dsimp only
    rw [if_pos rfl]
  · dsimp only
    intro v hv
    by_cases hva : v = a
    · exact Or.inl hva
    · rw [if_neg hva] at hv
      exact absurd rfl hv
  · dsimp only
    split
    · exact pqPush_sorted _ List.sorted_nil
    · exact List.sorted_nil
  · dsimp only
    intro e he
    split at he
    · rcases mem_pqPush.mp he with rfl | he
      · refine ⟨ha, ?_, ?_⟩
        · dsimp only
          rw [if_pos rfl]
        · exact WithTop.zero_ne_top
      · exact absurd he (List.not_mem_nil e)
    · exact absurd he (List.not_mem_nil e)
  · dsimp only
    intro hmode v _ _ hvfin
    rw [if_pos hmode]
    by_cases hva : v = a
    · refine mem_pqPush.mpr (Or.inl ?_)
      rw [hva, if_pos rfl]
    · rw [if_neg hva] at hvfin
      exact absurd rfl hvfin
  · dsimp only
    intro _ v
    constructor
    · intro hv
      exact ⟨hord.2.1 v hv, List.not_mem_nil v⟩
    · intro hv
      exact hord.2.2 v hv.1
  · exact hord.1
  · intro v u' hprev
    exact Option.noConfusion hprev
  · intro v u' hprev
    exact Option.noConfusion hprev
  · dsimp only
    intro v hva hvfin
    rw [if_neg hva] at hvfin
    exact absurd rfl hvfin
  · rfl
  · intro hcon
    exact Bool.noConfusion hcon

theorem stepN_inv (g : GraphL) (a b : String) (mode : Mode) (k : ℕ)
    (s : EngineState) (hWf : Wf g) (hb : b ∈ nodesOf g)
    (hInv : Inv g a b mode s) : Inv g a b mode (stepN g b mode k s) := by
  induction k generalizing s with
  | zero => exact hInv
  | succ k ih =>
    rw [stepN_succ]
    exact ih (stepE g b mode s) (stepE_inv g a b mode s hWf hb hInv)

theorem run_inv (g : GraphL) (a b : String) (mode : Mode) (t : ℕ)
    (ord : List String) (k : ℕ) (hWf : Wf g) (ha : a ∈ nodesOf g)
    (hb : b ∈ nodesOf g) (hord : PermOf g ord) :
    Inv g a b mode (stepN g b mode k (startE a mode t (resetE a ord))) :=
  stepN_inv g a b mode k _ hWf hb (init_inv g a b mode t ord ha hord)

/-! ### Progress and termination -/

theorem step_progress (g : GraphL) (a b : String) (mode : Mode)
    (s : EngineState) (hInv : Inv g a b mode s) (hrun : s.is_running = true)
    (hnfin : s.is_finished = false) :
    (stepE g b mode s).is_finished = true ∨
      ∃ u, u ∈ nodesOf g ∧ u ∉ s.visited ∧ u ≠ b ∧
        (stepE g b mode s).visited = s.visited ++ [u] ∧
        (stepE g b mode s).is_running = true ∧
        (stepE g b mode s).is_finished = false := by
  have hguard : ¬(s.is_running = false ∨ s.is_finished = true) := by
    intro hcon
    rcases hcon with h | h
    · rw [hrun] at h
      cases h
    · rw [hnfin] at h
      cases h
  unfold stepE
  rw [if_neg hguard]
  cases mode with
  | heap =>
    dsimp only
    cases hp : popFresh s.visited s.pq with
    | none => exact Or.inl rfl
    | some pr =>
      obtain ⟨e, rest⟩ := pr
      obtain ⟨d, u⟩ := e
      dsimp only
      obtain ⟨hu_node, hu_nvis, _, _, _⟩ := heap_select g a b s hInv d u rest hp
      split
      · exact Or.inl rfl
      · next hne =>
        refine Or.inr ⟨u, hu_node, hu_nvis, hne, ?_, ?_, ?_⟩
        · rw [relaxAll_visited]
        · rw [(relaxAll_flags _ _ _ _ _).1]
          exact hrun
        · rw [(relaxAll_flags _ _ _ _ _).2.1]
          exact hnfin
  | lin =>
    dsimp only
    cases hu : pyMin s.dist s.unvisited with
    | none => exact Or.inl rfl
    | some u =>
      dsimp only
      split
      · exact Or.inl rfl
      · next htop =>
        obtain ⟨hu_node, hu_nvis⟩ := (hInv.unvisited_iff rfl u).mp
          (pyMin_mem s.dist s.unvisited u hu)
        split
        · exact Or.inl rfl
        · next hne =>
          refine Or.inr ⟨u, hu_node, hu_nvis, hne, ?_, ?_, ?_⟩
          · rw [relaxAll_visited]
          · rw [(relaxAll_flags _ _ _ _ _).1]
            exact hrun
          · rw [(relaxAll_flags _ _ _ _ _).2.1]
            exact hnfin

theorem settleCount_decrease (g : GraphL) (b : String) (s s' : EngineState)
    (u : String) (hnodup : (nodesOf g).Nodup) (hu_node : u ∈ nodesOf g)
    (hu_nvis : u ∉ s.visited) (hu_ne : u ≠ b)
    (hvis : s'.visited = s.visited ++ [u]) :
    settleCount g b s' + 1 = settleCount g b s := by
  unfold settleCount
  rw [hvis]
  generalize hl : nodesOf g = l
  rw [hl] at hnodup hu_node
  clear hvis hl
  induction l with
  | nil => exact absurd hu_node (List.not_mem_nil u)
  | cons x xs ih =>
    rw [List.nodup_cons] at hnodup
    rcases List.mem_cons.mp hu_node with rfl | hx
    · -- head is the settled node: it counted before, does not count after
      rw [List.filter_cons, List.filter_cons]
      have h1 : (!(s.visited ++ [u]).contains u && u != b) = false := by
        simp [List.mem_append]
      have h2 : (!s.visited.contains u && u != b) = true := by
        simp [hu_nvis, hu_ne]
      rw [h1, h2]
      have hsame : ∀ v ∈ xs, (!(s.visited ++ [u]).contains v && v != b) =
          (!s.visited.contains v && v != b) := by
        intro v hv
        have hvu : v ≠ u := fun hcon => hnodup.1 (hcon ▸ hv)
        simp [List.mem_append, hvu]
      rw [List.filter_congr hsame]
      simp
    · -- the settled node is deeper in the list
      have hxu : x ≠ u := fun hcon => hnodup.1 (hcon ▸ hx)
      rw [List.filter_cons, List.filter_cons]
      have hsame : (!(s.visited ++ [u]).contains x && x != b) =
          (!s.visited.contains x && x != b) := by
        simp [List.mem_append, hxu]
      rw [hsame]
      have ihr := ih hx hnodup.2
      split
      · rw [List.length_cons, List.length_cons, ← ihr]
      · exact ihr

theorem finished_in_measure (g : GraphL) (a b : String) (mode : Mode) :
    ∀ (n : ℕ) (s : EngineState), Inv g a b mode s → Wf g → b ∈ nodesOf g →
      s.is_running = true → s.is_finished = false → settleCount g b s ≤ n →
      (stepN g b mode (n + 1) s).is_finished = true := by
  intro n
  induction n with
  | zero =>
    intro s hInv hWf hb hrun hnfin hcount
    show (stepE g b mode s).is_finished = true
    rcases step_progress g a b mode s hInv hrun hnfin with h |
      ⟨u, hu_node, hu_nvis, hu_ne, hvis, _, _⟩
    · exact h
    · have hdec := settleCount_decrease g b s (stepE g b mode s) u hWf.1
        hu_node hu_nvis hu_ne hvis
      omega
  | succ n ih =>
    intro s hInv hWf hb hrun hnfin hcount
    rcases step_progress g a b mode s hInv hrun hnfin with h |
      ⟨u, hu_node, hu_nvis, hu_ne, hvis, hrun', hnfin'⟩
    · rw [stepN_succ, stepN_finished g b mode (n + 1) _ h]
      exact h
    · rw [stepN_succ]
      have hdec := settleCount_decrease g b s (stepE g b mode s) u hWf.1
        hu_node hu_nvis hu_ne hvis
      exact ih (stepE g b mode s) (stepE_inv g a b mode s hWf hb hInv) hWf hb
        hrun' hnfin' (by omega)

theorem startE_reset_state (a : String) (mode : Mode) (t : ℕ)
    (ord : List String) :
    startE a mode t (resetE a ord) =
      { resetE a ord with
        pq := if mode = Mode.heap then pqPush ((0 : Dist), a) [] else [],
        is_running := true, start_time := t } := by
  unfold startE
  rw [if_neg (by simp [resetE])]
  rfl

theorem run_terminates (g : GraphL) (a b : String) (mode : Mode)
    (ord : List String) (hWf : Wf g) (ha : a ∈ nodesOf g)
    (hb : b ∈ nodesOf g) (hord : PermOf g ord) :
    (engineRun g a b mode ord (nodesOf g).length).is_finished = true := by
  have hInv := init_inv g a b mode 0 ord ha hord
  have hrun : (startE a mode 0 (resetE a ord)).is_running = true := by
    rw [startE_reset_state]
  have hnfin : (startE a mode 0 (resetE a ord)).is_finished = false := by
    rw [startE_reset_state]
    rfl
  have hvis : (startE a mode 0 (resetE a ord)).visited = [] := by
    rw [startE_reset_state]
    rfl
  have hcount : settleCount g b (startE a mode 0 (resetE a ord)) <
      (nodesOf g).length := by
    unfold settleCount
    rw [hvis]
    rw [List.length_filter_lt_length_iff_exists]
    exact ⟨b, hb, by simp⟩
  have hpos : 1 ≤ (nodesOf g).length := by
    rcases hl : nodesOf g with _ | ⟨x, xs⟩
    · rw [hl] at ha
      exact absurd ha (List.not_mem_nil a)
    · simp
  have hfin := finished_in_measure g a b mode ((nodesOf g).length - 1)
    (startE a mode 0 (resetE a ord)) hInv hWf hb hrun hnfin (by omega)
  have hlen : (nodesOf g).length - 1 + 1 = (nodesOf g).length := by omega
  rw [hlen] at hfin
  exact hfin

/-! ### The predecessor walk -/

theorem relaxOne_reach (mode : Mode) (u : String) (du : Dist)
    (s : EngineState) (e : String × ℕ) (R : List String)
    (hdist : ∀ v, s.dist v ≠ ⊤ → v ∈ R) (hpq : ∀ f ∈ s.pq, f.2 ∈ R)
    (hn : e.1 ∈ R) :
    (∀ v, (relaxOne mode u du s e).dist v ≠ ⊤ → v ∈ R) ∧
      (∀ f ∈ (relaxOne mode u du s e).pq, f.2 ∈ R) := by
  unfold relaxOne
  split
  · exact ⟨hdist, hpq⟩
  · split
    · constructor
      · dsimp only
        intro v hv
        rw [Function.update_apply] at hv
        by_cases hve : v = e.1
        · exact hve ▸ hn
        · rw [if_neg hve] at hv
          exact hdist v hv
      · dsimp only
        intro f hf
        split at hf
        · rcases mem_pqPush.mp hf with rfl | hf
          · exact hn
          · exact hpq f hf
        · exact hpq f hf
    · exact ⟨hdist, hpq⟩

theorem relaxList_reach (mode : Mode) (u : String) (du : Dist)
    (l : List (String × ℕ)) (s : EngineState) (R : List String)
    (hdist : ∀ v, s.dist v ≠ ⊤ → v ∈ R) (hpq : ∀ f ∈ s.pq, f.2 ∈ R)
    (hl : ∀ e ∈ l, e.1 ∈ R) :
    (∀ v, (l.foldl (relaxOne mode u du) s).dist v ≠ ⊤ → v ∈ R) ∧
      (∀ f ∈ (l.foldl (relaxOne mode u du) s).pq, f.2 ∈ R) := by
  induction l generalizing s with
  | nil => exact ⟨hdist, hpq⟩
  | cons e l ih =>
    rw [List.foldl_cons]
    obtain ⟨h1, h2⟩ := relaxOne_reach mode u du s e R hdist hpq
      (hl e (List.mem_cons_self e l))
    exact ih (relaxOne mode u du s e) h1 h2
      (fun f hf => hl f (List.mem_cons_of_mem e hf))

theorem stepE_reach (g : GraphL) (b : String) (mode : Mode) (s : EngineState)
    (R : List String) (hR_closed : ∀ u ∈ R, ∀ e ∈ adjOf g u, e.1 ∈ R)
    (hdist : ∀ v, s.dist v ≠ ⊤ → v ∈ R) (hpq : ∀ f ∈ s.pq, f.2 ∈ R) :
    (∀ v, (stepE g b mode s).dist v ≠ ⊤ → v ∈ R) ∧
      (∀ f ∈ (stepE g b mode s).pq, f.2 ∈ R) := by
  unfold stepE
  split
  · exact ⟨hdist, hpq⟩
  · cases mode with
    | heap =>
      dsimp only
      cases hp : popFresh s.visited s.pq with
      | none => exact ⟨hdist, fun f hf => absurd hf (List.not_mem_nil f)⟩
      | some pr =>
        obtain ⟨e, rest⟩ := pr
        obtain ⟨d, u⟩ := e
        dsimp only
        have hu_R : u ∈ R := hpq (d, u) (popFresh_some_mem _ _ _ _ hp)
        have hrest : ∀ f ∈ rest, f.2 ∈ R := fun f hf =>
          hpq f ((popFresh_rest_sublist _ _ _ _ hp).subset hf)
        split
        · exact ⟨hdist, hrest⟩
        · exact relaxList_reach Mode.heap u d (adjOf g u) _ R hdist hrest
            (hR_closed u hu_R)
    | lin =>
      dsimp only
      cases hu : pyMin s.dist s.unvisited with
      | none => exact ⟨hdist, hpq⟩
      | some u =>
        dsimp only
        split
        · exact ⟨hdist, hpq⟩
        · next htop =>
          have hu_R : u ∈ R := hdist u htop
          split
          · exact ⟨hdist, hpq⟩
          · exact relaxList_reach Mode.lin u (s.dist u) (adjOf g u) _ R hdist hpq
              (hR_closed u hu_R)

theorem run_reach (g : GraphL) (a b : String) (mode : Mode)
    (ord : List String) (R : List String) (ha_R : a ∈ R)
    (hR_closed : ∀ u ∈ R, ∀ e ∈ adjOf g u, e.1 ∈ R) (k : ℕ) :
    (∀ v, (engineRun g a b mode ord k).dist v ≠ ⊤ → v ∈ R) ∧
      (∀ f ∈ (engineRun g a b mode ord k).pq, f.2 ∈ R) := by
  induction k with
  | zero =>
    constructor
    · intro v hv
      rw [show engineRun g a b mode ord 0 = startE a mode 0 (resetE a ord) from rfl,
        startE_reset_state] at hv
      dsimp only [resetE] at hv
      by_cases hva : v = a
      · exact hva ▸ ha_R
      · rw [if_neg hva] at hv
        exact absurd rfl hv
    · intro f hf
      rw [show engineRun g a b mode ord 0 = startE a mode 0 (resetE a ord) from rfl,
        startE_reset_state] at hf
      dsimp only at hf
      split at hf
      · rcases mem_pqPush.mp hf with rfl | hf
        · exact ha_R
        · exact absurd hf (List.not_mem_nil f)
      · exact absurd hf (List.not_mem_nil f)
  | succ k ih =>
    have heq : engineRun g a b mode ord (k + 1) =
        stepE g b mode (engineRun g a b mode ord k) := by
      unfold engineRun
      rw [stepN_succ_out]
    rw [heq]
    exact stepE_reach g b mode (engineRun g a b mode ord k) R hR_closed ih.1 ih.2

/-! ### Lockstep equivalence of the two modes -/

theorem relaxOne_dist_prev (mode : Mode) (u : String) (du : Dist)
    (s : EngineState) (e : String × ℕ) :
    (relaxOne mode u du s e).dist =
      (if e.1 ∉ s.visited ∧ du + (e.2 : Dist) < s.dist e.1
        then Function.update s.dist e.1 (du + (e.2 : Dist)) else s.dist) ∧
      (relaxOne mode u du s e).prev =
        (if e.1 ∉ s.visited ∧ du + (e.2 : Dist) < s.dist e.1
          then Function.update s.prev e.1 (some u) else s.prev) := by
  constructor
  · unfold relaxOne
    by_cases h1 : e.1 ∈ s.visited
    · rw [if_pos h1, if_neg (fun hc => hc.1 h1)]
    · rw [if_neg h1]
      by_cases h2 : du + (e.2 : Dist) < s.dist e.1
      · rw [if_pos h2, if_pos (And.intro h1 h2)]
      · rw [if_neg h2, if_neg (fun hc => h2 hc.2)]
  · unfold relaxOne
    by_cases h1 : e.1 ∈ s.visited
    · rw [if_pos h1, if_neg (fun hc => hc.1 h1)]
    · rw [if_neg h1]
      by_cases h2 : du + (e.2 : Dist) < s.dist e.1
      · rw [if_pos h2, if_pos (And.intro h1 h2)]
      · rw [if_neg h2, if_neg (fun hc => h2 hc.2)]

theorem relaxOne_equiv (u : String) (du : Dist) (s1 s2 : EngineState)
    (e : String × ℕ) (h : StateEquiv s1 s2) :
    StateEquiv (relaxOne Mode.heap u du s1 e) (relaxOne Mode.lin u du s2 e) := by
  obtain ⟨hdist, hprev, hvis, hcur, hrun, hfin⟩ := h
  obtain ⟨hd1, hp1⟩ := relaxOne_dist_prev Mode.heap u du s1 e
  obtain ⟨hd2, hp2⟩ := relaxOne_dist_prev Mode.lin u du s2 e
  refine ⟨?_, ?_, ?_, ?_, ?_, ?_⟩
  · rw [hd1, hd2, hdist, hvis]
  · rw [hp1, hp2, hdist, hprev, hvis]
  · rw [relaxOne_visited, relaxOne_visited, hvis]
  · rw [(relaxOne_flags _ _ _ _ _).2.2.1, (relaxOne_flags _ _ _ _ _).2.2.1, hcur]
  · rw [(relaxOne_flags _ _ _ _ _).1, (relaxOne_flags _ _ _ _ _).1, hrun]
  · rw [(relaxOne_flags _ _ _ _ _).2.1, (relaxOne_flags _ _ _ _ _).2.1, hfin]

theorem relaxList_equiv (u : String) (du : Dist) (l : List (String × ℕ))
    (s1 s2 : EngineState) (h : StateEquiv s1 s2) :
    StateEquiv (l.foldl (relaxOne Mode.heap u du) s1)
      (l.foldl (relaxOne Mode.lin u du) s2) := by
  induction l generalizing s1 s2 with
  | nil => exact h
  | cons e l ih =>
    rw [List.foldl_cons, List.foldl_cons]
    exact ih _ _ (relaxOne_equiv u du s1 s2 e h)

theorem stepE_heap_eq (g : GraphL) (b : String) (s : EngineState)
    (hguard : ¬(s.is_running = false ∨ s.is_finished = true)) :
    stepE g b Mode.heap s =
      match popFresh s.visited s.pq with
      | none => finishS { s with pq := [] }
      | some (e, rest) =>
        if e.2 = b then
          finishS { s with pq := rest, current := some e.2,
                           visited := s.visited ++ [e.2] }
        else
          relaxAll g Mode.heap e.2 e.1
            { s with pq := rest, current := some e.2,
                     visited := s.visited ++ [e.2] } := by
  unfold stepE
  rw [if_neg hguard]

theorem stepE_lin_eq (g : GraphL) (b : String) (s : EngineState)
    (hguard : ¬(s.is_running = false ∨ s.is_finished = true)) :
    stepE g b Mode.lin s =
      match pyMin s.dist s.unvisited with
      | none => finishS s
      | some u =>
        if s.dist u = ⊤ then finishS s
        else if u = b then
          finishS { s with unvisited := s.unvisited.erase u,
                           current := some u, visited := s.visited ++ [u] }
        else
          relaxAll g Mode.lin u (s.dist u)
            { s with unvisited := s.unvisited.erase u,
                     current := some u, visited := s.visited ++ [u] } := by
  unfold stepE
  rw [if_neg hguard]

theorem coupled_step (g : GraphL) (a b : String) (sh sl : EngineState)
    (hWf : Wf g) (hb : b ∈ nodesOf g) (hc : Coupled g a b sh sl) :
    Coupled g a b (stepE g b Mode.heap sh) (stepE g b Mode.lin sl) := by
  obtain ⟨hIh, hIl, hequiv, hsort⟩ := hc
  obtain ⟨hdist, hprev, hvis, hcur, hrun, hfin⟩ := hequiv
  by_cases hguard : sh.is_running = false ∨ sh.is_finished = true
  · have hguard2 : sl.is_running = false ∨ sl.is_finished = true := by
      rw [← hrun, ← hfin]
      exact hguard
    rw [stepE_inert _ _ _ _ hguard, stepE_inert _ _ _ _ hguard2]
    exact ⟨hIh, hIl, ⟨hdist, hprev, hvis, hcur, hrun, hfin⟩, hsort⟩
  · have hguard2 : ¬(sl.is_running = false ∨ sl.is_finished = true) := by
      rw [← hrun, ← hfin]
      exact hguard
    refine ⟨stepE_inv g a b Mode.heap sh hWf hb hIh,
      stepE_inv g a b Mode.lin sl hWf hb hIl, ?_⟩
    rw [stepE_heap_eq g b sh hguard, stepE_lin_eq g b sl hguard2]
    cases hp : popFresh sh.visited sh.pq with
    | none =>
      have hexh := heap_exhausted g a b sh hIh hp
      cases hu : pyMin sl.dist sl.unvisited with
      | none =>
        exact ⟨⟨hdist, hprev, hvis, hcur, rfl, rfl⟩, hsort⟩
      | some u =>
        obtain ⟨hu_node, hu_nvis⟩ := (hIl.unvisited_iff rfl u).mp
          (pyMin_mem sl.dist sl.unvisited u hu)
        have htop : sl.dist u = ⊤ := by
          rw [← hdist]
          exact hexh u hu_node (by rw [hvis]; exact hu_nvis)
        dsimp only
        rw [if_pos htop]
        exact ⟨⟨hdist, hprev, hvis, hcur, rfl, rfl⟩, hsort⟩
    | some pr =>
      obtain ⟨e, rest⟩ := pr
      obtain ⟨d, u⟩ := e
      obtain ⟨hu_node, hu_nvis, hdu, hu_fin, hmin⟩ :=
        heap_select g a b sh hIh d u rest hp
      have hu_unvis : u ∈ sl.unvisited := (hIl.unvisited_iff rfl u).mpr
        ⟨hu_node, by rw [← hvis]; exact hu_nvis⟩
      cases hu' : pyMin sl.dist sl.unvisited with
      | none =>
        rw [pyMin_none_iff] at hu'
        rw [hu'] at hu_unvis
        exact absurd hu_unvis (List.not_mem_nil u)
      | some w =>
        obtain ⟨hw_node, hw_nvis⟩ := (hIl.unvisited_iff rfl w).mp
          (pyMin_mem sl.dist sl.unvisited w hu')
        have hle := pyMin_le_all sl.dist sl.unvisited w hu' u hu_unvis
        have hw_fin : sl.dist w ≠ ⊤ := by
          intro hcon
          rw [hcon] at hle
          rw [← hdist] at hle
          exact hu_fin (top_le_iff.mp hle)
        have hmin_w := hmin w hw_node (by rw [hvis]; exact hw_nvis)
          (by rw [hdist]; exact hw_fin)
        rw [hdist] at hmin_w
        have hlex := pyMin_lex sl.dist sl.unvisited w hsort hu' u hu_unvis
        have h2 : entryLe (sl.dist w, w) (sl.dist u, u) := by
          rcases hlex with h | ⟨hq1, hq2⟩
          · exact Or.inl h
          · exact Or.inr ⟨hq1, hq2⟩
        obtain ⟨_, heq2⟩ := entryLe_antisymm_nodes hmin_w h2
        have hwu : w = u := heq2.symm
        subst hwu
        dsimp only
        rw [if_neg hw_fin]
        by_cases hub : w = b
        · rw [if_pos hub, if_pos hub]
          refine ⟨⟨hdist, hprev, ?_, rfl, rfl, rfl⟩, ?_⟩
          · show sh.visited ++ [w] = sl.visited ++ [w]
            rw [hvis]
          · exact hsort.sublist (List.erase_sublist w sl.unvisited)
        · rw [if_neg hub, if_neg hub]
          have hequiv1 : StateEquiv
              { sh with pq := rest, current := some w,
                        visited := sh.visited ++ [w] }
              { sl with unvisited := sl.unvisited.erase w,
                        current := some w, visited := sl.visited ++ [w] } := by
            refine ⟨hdist, hprev, ?_, rfl, hrun, hfin⟩
            show sh.visited ++ [w] = sl.visited ++ [w]
            rw [hvis]
          have hd_eq : d = sl.dist w := by
            rw [hdu, hdist]
          constructor
          · unfold relaxAll
            rw [hd_eq]
            exact relaxList_equiv w (sl.dist w) (adjOf g w) _ _ hequiv1
          · rw [relaxAll_unvisited]
            exact hsort.sublist (List.erase_sublist w sl.unvisited)

theorem sortNodes_perm (g : GraphL) : (sortNodes g).Perm (nodesOf g) :=
  List.perm_insertionSort _ _

theorem sortNodes_sorted (g : GraphL) : List.Sorted strLe (sortNodes g) :=
  List.sorted_insertionSort _ _

theorem sortNodes_permOf (g : GraphL) (h : (nodesOf g).Nodup) :
    PermOf g (sortNodes g) := by
  refine ⟨((sortNodes_perm g).nodup_iff).mpr h, ?_, ?_⟩
  · intro v hv
    exact (sortNodes_perm g).mem_iff.mp hv
  · intro v hv
    exact (sortNodes_perm g).mem_iff.mpr hv

theorem coupled_init (g : GraphL) (a b : String) (hWf : Wf g)
    (ha : a ∈ nodesOf g) :
    Coupled g a b (startE a Mode.heap 0 (resetE a (sortNodes g)))
      (startE a Mode.lin 0 (resetE a (sortNodes g))) := by
  refine ⟨init_inv g a b Mode.heap 0 (sortNodes g) ha (sortNodes_permOf g hWf.1),
    init_inv g a b Mode.lin 0 (sortNodes g) ha (sortNodes_permOf g hWf.1),
    ?_, ?_⟩
  · rw [startE_reset_state, startE_reset_state]
    exact ⟨rfl, rfl, rfl, rfl, rfl, rfl⟩
  · rw [startE_reset_state]
    exact sortNodes_sorted g

theorem coupled_run (g : GraphL) (a b : String) (hWf : Wf g)
    (ha : a ∈ nodesOf g) (hb : b ∈ nodesOf g) (k : ℕ) :
    Coupled g a b (engineRun g a b Mode.heap (sortNodes g) k)
      (engineRun g a b Mode.lin (sortNodes g) k) := by
  induction k with
  | zero => exact coupled_init g a b hWf ha
  | succ k ih =>
    have h1 : engineRun g a b Mode.heap (sortNodes g) (k + 1) =
        stepE g b Mode.heap (engineRun g a b Mode.heap (sortNodes g) k) := by
      unfold engineRun
      rw [stepN_succ_out]
    have h2 : engineRun g a b Mode.lin (sortNodes g) (k + 1) =
        stepE g b Mode.lin (engineRun g a b Mode.lin (sortNodes g) k) := by
      unfold engineRun
      rw [stepN_succ_out]
    rw [h1, h2]
    exact coupled_step g a b _ _ hWf hb ih

/-! ### Dijkstra cost correctness -/

theorem walk_crossing (g : GraphL) (a b : String) (s : EngineState)
    (hstart : s.dist a = 0)
    (hd1 : ∀ v ∈ s.visited, ∀ c : ℕ, HasWalk g a v c → s.dist v ≤ (c : Dist))
    (hd2 : ∀ u ∈ s.visited, u ≠ b → ∀ e ∈ adjOf g u, e.1 ∉ s.visited →
      s.dist e.1 ≤ s.dist u + (e.2 : Dist)) :
    ∀ (z : String) (c : ℕ), HasWalk g a z c →
      s.dist z ≤ (c : Dist) ∨ (∃ y, y ∉ s.visited ∧ s.dist y ≤ (c : Dist)) ∨
        s.dist b ≤ (c : Dist) := by
  intro z c hwalk
  induction hwalk with
  | nil =>
    refine Or.inl ?_
    rw [hstart, Nat.cast_zero]
  | cons hw hadj ih =>
    next u v w c' =>
    have hcast : ((c' + w : ℕ) : Dist) = (c' : Dist) + (w : Dist) := by
      push_cast
      rfl
    have hmono : (c' : Dist) ≤ ((c' + w : ℕ) : Dist) := by
      rw [hcast]
      exact le_add_of_nonneg_right (zero_le _)
    rcases ih with h | ⟨y, hy, hyle⟩ | h
    · by_cases hu_vis : u ∈ s.visited
      · by_cases hub : u = b
        · exact Or.inr (Or.inr ((hub ▸ h).trans hmono))
        · by_cases hv_vis : v ∈ s.visited
          · exact Or.inl (hd1 v hv_vis (c' + w) (HasWalk.cons hw hadj))
          · refine Or.inl ?_
            calc s.dist v ≤ s.dist u + (w : Dist) :=
                  hd2 u hu_vis hub (v, w) hadj hv_vis
              _ ≤ (c' : Dist) + (w : Dist) := add_le_add_right h _
              _ = ((c' + w : ℕ) : Dist) := hcast.symm
      · exact Or.inr (Or.inl ⟨u, hu_vis, h.trans hmono⟩)
    · exact Or.inr (Or.inl ⟨y, hy, hyle.trans hmono⟩)
    · exact Or.inr (Or.inr (h.trans hmono))

theorem relaxList_dist_le (mode : Mode) (u : String) (du : Dist)
    (l : List (String × ℕ)) (s : EngineState) (v : String) :
    (l.foldl (relaxOne mode u du) s).dist v ≤ s.dist v := by
  induction l generalizing s with
  | nil => exact le_refl _
  | cons e l ih =>
    rw [List.foldl_cons]
    exact (ih (relaxOne mode u du s e)).trans (relaxOne_dist_le mode u du s e v)

theorem relaxList_bound (mode : Mode) (u : String) (du : Dist)
    (l : List (String × ℕ)) (s : EngineState) :
    ∀ e ∈ l, e.1 ∈ s.visited ∨
      (l.foldl (relaxOne mode u du) s).dist e.1 ≤ du + (e.2 : Dist) := by
  induction l generalizing s with
  | nil =>
    intro e he
    exact absurd he (List.not_mem_nil e)
  | cons f l ih =>
    intro e he
    rw [List.foldl_cons]
    rcases List.mem_cons.mp he with rfl | he
    · by_cases hf : e.1 ∈ s.visited
      · exact Or.inl hf
      · refine Or.inr ?_
        have hone : (relaxOne mode u du s e).dist e.1 ≤ du + (e.2 : Dist) := by
          unfold relaxOne
          rw [if_neg hf]
          split
          · next himp =>
            dsimp only
            rw [Function.update_same]
          · next himp => exact not_lt.mp himp
        exact (relaxList_dist_le mode u du l _ e.1).trans hone
    · rcases ih (relaxOne mode u du s f) e he with h | h
      · rw [relaxOne_visited] at h
        exact Or.inl h
      · exact Or.inr h

theorem relaxOne_d3d4 (g : GraphL) (a : String) (mode : Mode) (u : String)
    (du : Dist) (cu : ℕ) (s : EngineState) (e : String × ℕ)
    (hdu : du = (cu : Dist)) (hwu : HasWalk g a u cu)
    (hadj : e ∈ adjOf g u)
    (h3 : ∀ v, s.dist v ≠ ⊤ → ∃ c : ℕ, s.dist v = (c : Dist) ∧ HasWalk g a v c)
    (h4 : ∀ f ∈ s.pq, ∃ c : ℕ, f.1 = (c : Dist) ∧ HasWalk g a f.2 c) :
    (∀ v, (relaxOne mode u du s e).dist v ≠ ⊤ →
        ∃ c : ℕ, (relaxOne mode u du s e).dist v = (c : Dist) ∧ HasWalk g a v c) ∧
      (∀ f ∈ (relaxOne mode u du s e).pq,
        ∃ c : ℕ, f.1 = (c : Dist) ∧ HasWalk g a f.2 c) := by
  have hnew : du + (e.2 : Dist) = ((cu + e.2 : ℕ) : Dist) := by
    rw [hdu]
    push_cast
    rfl
  have hwalk_n : HasWalk g a e.1 (cu + e.2) := HasWalk.cons hwu (by
    have : e = (e.1, e.2) := rfl
    rw [← this]
    exact hadj)
  unfold relaxOne
  split
  · exact ⟨h3, h4⟩
  · split
    · constructor
      · dsimp only
        intro v hv
        rw [Function.update_apply] at hv ⊢
        by_cases hve : v = e.1
        · rw [if_pos hve] at hv ⊢
          refine ⟨cu + e.2, hnew, ?_⟩
          rw [hve]
          exact hwalk_n
        · rw [if_neg hve] at hv ⊢
          exact h3 v hv
      · dsimp only
        intro f hf
        split at hf
        · rcases mem_pqPush.mp hf with rfl | hf
          · exact ⟨cu + e.2, hnew, hwalk_n⟩
          · exact h4 f hf
        · exact h4 f hf
    · exact ⟨h3, h4⟩

theorem relaxList_d3d4 (g : GraphL) (a : String) (mode : Mode) (u : String)
    (du : Dist) (cu : ℕ) (l : List (String × ℕ)) (s : EngineState)
    (hdu : du = (cu : Dist)) (hwu : HasWalk g a u cu)
    (hl : ∀ e ∈ l, e ∈ adjOf g u)
    (h3 : ∀ v, s.dist v ≠ ⊤ → ∃ c : ℕ, s.dist v = (c : Dist) ∧ HasWalk g a v c)
    (h4 : ∀ f ∈ s.pq, ∃ c : ℕ, f.1 = (c : Dist) ∧ HasWalk g a f.2 c) :
    (∀ v, (l.foldl (relaxOne mode u du) s).dist v ≠ ⊤ →
        ∃ c : ℕ, (l.foldl (relaxOne mode u du) s).dist v = (c : Dist) ∧
          HasWalk g a v c) ∧
      (∀ f ∈ (l.foldl (relaxOne mode u du) s).pq,
        ∃ c : ℕ, f.1 = (c : Dist) ∧ HasWalk g a f.2 c) := by
  induction l generalizing s with
  | nil => exact ⟨h3, h4⟩
  | cons e l ih =>
    rw [List.foldl_cons]
    obtain ⟨g3, g4⟩ := relaxOne_d3d4 g a mode u du cu s e hdu hwu
      (hl e (List.mem_cons_self e l)) h3 h4
    exact ih (relaxOne mode u du s e) (fun f hf => hl f (List.mem_cons_of_mem e hf))
      g3 g4

theorem DInv_step (g : GraphL) (a b : String) (mode : Mode) (s : EngineState)
    (ha : a ∈ nodesOf g) (hInv : Inv g a b mode s) (hD : DInv g a b s) :
    DInv g a b (stepE g b mode s) := by
  unfold stepE
  split
  · exact hD
  · next hguard =>
    have hnfin : s.is_finished = false := by
      rcases Bool.eq_false_or_eq_true s.is_finished with h | h
      · exact absurd (Or.inr h) hguard
      · exact h
    have hbnvis : b ∉ s.visited := by
      intro hcon
      rw [hD.d6 hcon] at hnfin
      cases hnfin
    have hnode_of_fin : ∀ y, s.dist y ≠ ⊤ → y ∈ nodesOf g := by
      intro y hytop
      rcases hInv.finite_nodes y hytop with rfl | h
      · exact ha
      · exact h
    cases mode with
    | heap =>
      dsimp only
      cases hp : popFresh s.visited s.pq with
      | none =>
        have hexh := heap_exhausted g a b s hInv hp
        refine ⟨hD.d1, hD.d2, hD.d3, ?_, ?_, ?_⟩
        · intro f hf
          exact absurd hf (List.not_mem_nil f)
        · intro _ y hy
          by_cases hytop : s.dist y = ⊤
          · show s.dist b ≤ s.dist y
            rw [hytop]
            exact le_top
          · exact absurd (hexh y (hnode_of_fin y hytop) hy) hytop
        · intro _
          rfl
      | some pr =>
        obtain ⟨e, rest⟩ := pr
        obtain ⟨d, u⟩ := e
        dsimp only
        obtain ⟨hu_node, hu_nvis, hdu, hu_fin, hmin⟩ :=
          heap_select g a b s hInv d u rest hp
        have hsel : ∀ y, y ∉ s.visited → s.dist u ≤ s.dist y := by
          intro y hy
          by_cases hytop : s.dist y = ⊤
          · rw [hytop]
            exact le_top
          · rcases hmin y (hnode_of_fin y hytop) hy hytop with h | ⟨h, _⟩
            · exact le_of_lt h
            · exact le_of_eq h
        have hd1u : ∀ c : ℕ, HasWalk g a u c → s.dist u ≤ (c : Dist) := by
          intro c hw
          rcases walk_crossing g a b s hInv.dist_start hD.d1 hD.d2 u c hw with
            h | ⟨y, hy, hyle⟩ | h
          · exact h
          · exact (hsel y hy).trans hyle
          · exact (hsel b hbnvis).trans h
        obtain ⟨cu, hcu, hwu⟩ := hD.d3 u hu_fin
        have hd1' : ∀ v ∈ s.visited ++ [u], ∀ c : ℕ, HasWalk g a v c →
            s.dist v ≤ (c : Dist) := by
          intro v hv c hw
          rcases List.mem_append.mp hv with hv | hv
          · exact hD.d1 v hv c hw
          · have hvu := List.mem_singleton.mp hv
            subst hvu
            exact hd1u c hw
        have hrest4 : ∀ f ∈ rest, ∃ c : ℕ, f.1 = (c : Dist) ∧ HasWalk g a f.2 c :=
          fun f hf => hD.d4 f ((popFresh_rest_sublist _ _ _ _ hp).subset hf)
        split
        · next hub =>
          refine ⟨hd1', ?_, hD.d3, hrest4, ?_, ?_⟩
          · intro u' hu' hu'b f hf hfn
            rcases List.mem_append.mp hu' with hu' | hu'
            · refine hD.d2 u' hu' hu'b f hf ?_
              intro hcon
              exact hfn (List.mem_append_left _ hcon)
            · exact absurd ((List.mem_singleton.mp hu').trans hub) hu'b
          · intro _ y hy
            have hy1 : y ∉ s.visited := fun h => hy (List.mem_append_left _ h)
            show s.dist b ≤ s.dist y
            rw [← hub]
            exact hsel y hy1
          · intro _
            rfl
        · next hub =>
          have hfrozen : ∀ v ∈ s.visited ++ [u],
              (relaxAll g Mode.heap u d
                { s with pq := rest, current := some u,
                         visited := s.visited ++ [u] }).dist v = s.dist v :=
            fun v hv => (relaxAll_frozen g Mode.heap u d _ v hv).1
          have hvis_eq : (relaxAll g Mode.heap u d
              { s with pq := rest, current := some u,
                       visited := s.visited ++ [u] }).visited =
              s.visited ++ [u] := relaxAll_visited _ _ _ _ _
          obtain ⟨h3', h4'⟩ := relaxList_d3d4 g a Mode.heap u d cu (adjOf g u)
            { s with pq := rest, current := some u, visited := s.visited ++ [u] }
            (by rw [hdu]; exact hcu) hwu (fun f hf => hf) hD.d3 hrest4
          refine ⟨?_, ?_, h3', h4', ?_, ?_⟩
          · intro v hv c hw
            rw [hvis_eq] at hv
            rw [hfrozen v hv]
            exact hd1' v hv c hw
          · intro u' hu' hu'b f hf hfn
            rw [hvis_eq] at hu' hfn
            rw [hfrozen u' hu']
            rcases List.mem_append.mp hu' with hu'o | hu'o
            · have hfn0 : f.1 ∉ s.visited := fun h => hfn (List.mem_append_left _ h)
              exact (relaxAll_dist_le g Mode.heap u d _ f.1).trans
                (hD.d2 u' hu'o hu'b f hf hfn0)
            · have hu'u : u' = u := List.mem_singleton.mp hu'o
              rcases relaxList_bound Mode.heap u d (adjOf g u)
                { s with pq := rest, current := some u,
                         visited := s.visited ++ [u] } f (by rw [← hu'u]; exact hf)
                with h | h
              · exact absurd h hfn
              · rw [hu'u]
                refine h.trans ?_
                rw [hdu]
          · intro hcon
            rw [(relaxAll_flags _ _ _ _ _).2.1] at hcon
            rw [hnfin] at hcon
            cases hcon
          · intro hcon
            rw [hvis_eq] at hcon
            rcases List.mem_append.mp hcon with h | h
            · exact absurd h hbnvis
            · exact absurd (List.mem_singleton.mp h).symm hub
    | lin =>
      dsimp only
      cases hu : pyMin s.dist s.unvisited with
      | none =>
        have hempty : s.unvisited = [] := (pyMin_none_iff s.dist s.unvisited).mp hu
        refine ⟨hD.d1, hD.d2, hD.d3, hD.d4, ?_, ?_⟩
        · intro _ y hy
          by_cases hytop : s.dist y = ⊤
          · show s.dist b ≤ s.dist y
            rw [hytop]
            exact le_top
          · have : y ∈ s.unvisited :=
              (hInv.unvisited_iff rfl y).mpr ⟨hnode_of_fin y hytop, hy⟩
            rw [hempty] at this
            exact absurd this (List.not_mem_nil y)
        · intro _
          rfl
      | some u =>
        dsimp only
        split
        · next htop =>
          refine ⟨hD.d1, hD.d2, hD.d3, hD.d4, ?_, ?_⟩
          · intro _ y hy
            by_cases hytop : s.dist y = ⊤
            · show s.dist b ≤ s.dist y
              rw [hytop]
              exact le_top
            · have hyu : y ∈ s.unvisited :=
                (hInv.unvisited_iff rfl y).mpr ⟨hnode_of_fin y hytop, hy⟩
              have := pyMin_le_all s.dist s.unvisited u hu y hyu
              rw [htop] at this
              exact absurd (top_le_iff.mp this) hytop
          · intro _
            rfl
        · next htop =>
          obtain ⟨hu_node, hu_nvis⟩ := (hInv.unvisited_iff rfl u).mp
            (pyMin_mem s.dist s.unvisited u hu)
          have hsel : ∀ y, y ∉ s.visited → s.dist u ≤ s.dist y := by
            intro y hy
            by_cases hytop : s.dist y = ⊤
            · rw [hytop]
              exact le_top
            · exact pyMin_le_all s.dist s.unvisited u hu y
                ((hInv.unvisited_iff rfl y).mpr ⟨hnode_of_fin y hytop, hy⟩)
          have hd1u : ∀ c : ℕ, HasWalk g a u c → s.dist u ≤ (c : Dist) := by
            intro c hw
            rcases walk_crossing g a b s hInv.dist_start hD.d1 hD.d2 u c hw with
              h | ⟨y, hy, hyle⟩ | h
            · exact h
            · exact (hsel y hy).trans hyle
            · exact (hsel b hbnvis).trans h
          obtain ⟨cu, hcu, hwu⟩ := hD.d3 u htop
          have hd1' : ∀ v ∈ s.visited ++ [u], ∀ c : ℕ, HasWalk g a v c →
              s.dist v ≤ (c : Dist) := by
            intro v hv c hw
            rcases List.mem_append.mp hv with hv | hv
            · exact hD.d1 v hv c hw
            · have hvu := List.mem_singleton.mp hv
              subst hvu
              exact hd1u c hw
          split
          · next hub =>
            refine ⟨hd1', ?_, hD.d3, hD.d4, ?_, ?_⟩
            · intro u' hu' hu'b f hf hfn
              rcases List.mem_append.mp hu' with hu' | hu'
              · refine hD.d2 u' hu' hu'b f hf ?_
                intro hcon
                exact hfn (List.mem_append_left _ hcon)
              · exact absurd ((List.mem_singleton.mp hu').trans hub) hu'b
            · intro _ y hy
              have hy1 : y ∉ s.visited := fun h => hy (List.mem_append_left _ h)
              show s.dist b ≤ s.dist y
              rw [← hub]
              exact hsel y hy1
            · intro _
              rfl
          · next hub =>
            have hfrozen : ∀ v ∈ s.visited ++ [u],
                (relaxAll g Mode.lin u (s.dist u)
                  { s with unvisited := s.unvisited.erase u,
                           current := some u,
                           visited := s.visited ++ [u] }).dist v = s.dist v :=
              fun v hv => (relaxAll_frozen g Mode.lin u (s.dist u) _ v hv).1
            have hvis_eq : (relaxAll g Mode.lin u (s.dist u)
                { s with unvisited := s.unvisited.erase u,
                         current := some u,
                         visited := s.visited ++ [u] }).visited =
                s.visited ++ [u] := relaxAll_visited _ _ _ _ _
            obtain ⟨h3', h4'⟩ := relaxList_d3d4 g a Mode.lin u (s.dist u) cu
              (adjOf g u)
              { s with unvisited := s.unvisited.erase u, current := some u,
                       visited := s.visited ++ [u] }
              hcu hwu (fun f hf => hf) hD.d3 hD.d4
            refine ⟨?_, ?_, h3', h4', ?_, ?_⟩
            · intro v hv c hw
              rw [hvis_eq] at hv
              rw [hfrozen v hv]
              exact hd1' v hv c hw
            · intro u' hu' hu'b f hf hfn
              rw [hvis_eq] at hu' hfn
              rw [hfrozen u' hu']
              rcases List.mem_append.mp hu' with hu'o | hu'o
              · have hfn0 : f.1 ∉ s.visited := fun h => hfn (List.mem_append_left _ h)
                exact (relaxAll_dist_le g Mode.lin u (s.dist u) _ f.1).trans
                  (hD.d2 u' hu'o hu'b f hf hfn0)
              · have hu'u : u' = u := List.mem_singleton.mp hu'o
                rcases relaxList_bound Mode.lin u (s.dist u) (adjOf g u)
                  { s with unvisited := s.unvisited.erase u, current := some u,
                           visited := s.visited ++ [u] } f (by rw [← hu'u]; exact hf)
                  with h | h
                · exact absurd h hfn
                · rw [hu'u]
                  exact h
            · intro hcon
              rw [(relaxAll_flags _ _ _ _ _).2.1] at hcon
              rw [hnfin] at hcon
              cases hcon
            · intro hcon
              rw [hvis_eq] at hcon
              rcases List.mem_append.mp hcon with h | h
              · exact absurd h hbnvis
              · exact absurd (List.mem_singleton.mp h).symm hub

theorem DInv_init (g : GraphL) (a b : String) (mode : Mode) (t : ℕ)
    (ord : List String) :
    DInv g a b (startE a mode t (resetE a ord)) := by
  rw [startE_reset_state]
  refine ⟨?_, ?_, ?_, ?_, ?_, ?_⟩
  · intro v hv
    exact absurd hv (List.not_mem_nil v)
  · intro u hu
    exact absurd hu (List.not_mem_nil u)
  · dsimp only [resetE]
    intro v hv
    by_cases hva : v = a
    · refine ⟨0, ?_, ?_⟩
      · rw [if_pos hva, Nat.cast_zero]
      · rw [hva]
        exact HasWalk.nil
    · rw [if_neg hva] at hv
      exact absurd rfl hv
  · dsimp only
    intro f hf
    split at hf
    · rcases mem_pqPush.mp hf with rfl | hf
      · exact ⟨0, by rw [Nat.cast_zero], HasWalk.nil⟩
      · exact absurd hf (List.not_mem_nil f)
    · exact absurd hf (List.not_mem_nil f)
  · intro hcon
    exact absurd hcon (by simp [resetE])
  · intro hcon
    exact absurd hcon (List.not_mem_nil b)

theorem DInv_run (g : GraphL) (a b : String) (mode : Mode) (ord : List String)
    (k : ℕ) (hWf : Wf g) (ha : a ∈ nodesOf g) (hb : b ∈ nodesOf g)
    (hord : PermOf g ord) : DInv g a b (engineRun g a b mode ord k) := by
  induction k with
  | zero => exact DInv_init g a b mode 0 ord
  | succ k ih =>
    have heq : engineRun g a b mode ord (k + 1) =
        stepE g b mode (engineRun g a b mode ord k) := by
      unfold engineRun
      rw [stepN_succ_out]
    rw [heq]
    exact DInv_step g a b mode (engineRun g a b mode ord k) ha
      (run_inv g a b mode 0 ord k hWf ha hb hord) ih

theorem run_cost_minimal (g : GraphL) (a b : String) (mode : Mode)
    (ord : List String) (k : ℕ) (hWf : Wf g) (ha : a ∈ nodesOf g)
    (hb : b ∈ nodesOf g) (hord : PermOf g ord)
    (hfin : (engineRun g a b mode ord k).is_finished = true) :
    ∀ c : ℕ, HasWalk g a b c →
      (engineRun g a b mode ord k).dist b ≤ (c : Dist) := by
  have hInv := run_inv g a b mode 0 ord k hWf ha hb hord
  have hD := DInv_run g a b mode ord k hWf ha hb hord
  intro c hw
  rcases walk_crossing g a b (engineRun g a b mode ord k) hInv.dist_start
    hD.d1 hD.d2 b c hw with h | ⟨y, hy, hyle⟩ | h
  · exact h
  · exact (hD.d5 hfin y hy).trans hyle
  · exact h

theorem run_cost_le (g : GraphL) (a b : String) (m1 m2 : Mode)
    (o1 o2 : List String) (k1 k2 : ℕ) (hWf : Wf g) (ha : a ∈ nodesOf g)
    (hb : b ∈ nodesOf g) (ho1 : PermOf g o1) (ho2 : PermOf g o2)
    (hf1 : (engineRun g a b m1 o1 k1).is_finished = true) :
    (engineRun g a b m1 o1 k1).dist b ≤ (engineRun g a b m2 o2 k2).dist b := by
  by_cases h2 : (engineRun g a b m2 o2 k2).dist b = ⊤
  · rw [h2]
    exact le_top
  · obtain ⟨c, hceq, hcw⟩ := (DInv_run g a b m2 o2 k2 hWf ha hb ho2).d3 b h2
    rw [hceq]
    exact run_cost_minimal g a b m1 o1 k1 hWf ha hb ho1 hf1 c hcw

theorem run_cost_eq (g : GraphL) (a b : String) (m1 m2 : Mode)
    (o1 o2 : List String) (hWf : Wf g) (ha : a ∈ nodesOf g)
    (hb : b ∈ nodesOf g) (ho1 : PermOf g o1) (ho2 : PermOf g o2) :
    (engineRun g a b m1 o1 (nodesOf g).length).dist b =
      (engineRun g a b m2 o2 (nodesOf g).length).dist b := by
  have hf1 := run_terminates g a b m1 o1 hWf ha hb ho1
  have hf2 := run_terminates g a b m2 o2 hWf ha hb ho2
  exact le_antisymm
    (run_cost_le g a b m1 m2 o1 o2 _ _ hWf ha hb ho1 ho2 hf1)
    (run_cost_le g a b m2 m1 o2 o1 _ _ hWf ha hb ho2 ho1 hf2)

/-! ### Independence of a run from the unvisited-set iteration order -/

theorem permOf_perm (g : GraphL) (ord : List String) (hWf : Wf g)
    (hord : PermOf g ord) : (nodesOf g).Perm ord := by
  obtain ⟨hnd, hsub, hsup⟩ := hord
  exact (List.perm_ext_iff_of_nodup hWf.1 hnd).mpr fun v => ⟨hsup v, hsub v⟩

theorem pyMin_perm (key : String → Dist) (l1 l2 : List String)
    (hperm : l1.Perm l2) (huniq : UniqueMin key l1) :
    pyMin key l1 = pyMin key l2 := by
  cases h1 : pyMin key l1 with
  | none =>
    rw [pyMin_none_iff] at h1
    subst h1
    rw [(pyMin_none_iff key l2).mpr hperm.symm.eq_nil]
  | some u =>
    cases h2 : pyMin key l2 with
    | none =>
      rw [pyMin_none_iff] at h2
      subst h2
      rw [hperm.eq_nil] at h1
      simp [pyMin_nil] at h1
    | some v =>
      have hu := pyMin_mem key l1 u h1
      have hv : v ∈ l1 := hperm.mem_iff.mpr (pyMin_mem key l2 v h2)
      have hule := pyMin_le_all key l1 u h1
      have hvle : ∀ w ∈ l1, key v ≤ key w := fun w hw =>
        pyMin_le_all key l2 v h2 w (hperm.mem_iff.mp hw)
      rw [huniq u hu v hv hule hvle]

theorem relaxOne_set_unvisited (mode : Mode) (u : String) (du : Dist)
    (s : EngineState) (l : List String) (e : String × ℕ) :
    relaxOne mode u du { s with unvisited := l } e =
      { relaxOne mode u du s e with unvisited := l } := by
  unfold relaxOne
  dsimp only
  split_ifs <;> rfl

theorem relaxAll_set_unvisited (g : GraphL) (mode : Mode) (u : String)
    (du : Dist) (s : EngineState) (l : List String) :
    relaxAll g mode u du { s with unvisited := l } =
      { relaxAll g mode u du s with unvisited := l } := by
  unfold relaxAll
  generalize adjOf g u = es
  induction es generalizing s with
  | nil => rfl
  | cons e es ih =>
    rw [List.foldl_cons, List.foldl_cons, relaxOne_set_unvisited, ih]

theorem stepE_heap_set_unvisited (g : GraphL) (endN : String)
    (s : EngineState) (l : List String) :
    stepE g endN Mode.heap { s with unvisited := l } =
      { stepE g endN Mode.heap s with unvisited := l } := by
  unfold stepE
  dsimp only
  by_cases hg : s.is_running = false ∨ s.is_finished = true
  · simp only [if_pos hg]
  · simp only [if_neg hg]
    cases hp : popFresh s.visited s.pq with
    | none => rfl
    | some p =>
      obtain ⟨e, rest⟩ := p
      dsimp only
      by_cases he : e.2 = endN
      · simp only [if_pos he]
        rfl
      · simp only [if_neg he]
        exact relaxAll_set_unvisited g Mode.heap e.2 e.1
          { s with pq := rest, current := some e.2,
                   visited := s.visited ++ [e.2] } l

theorem stepN_heap_set_unvisited (g : GraphL) (endN : String) (k : ℕ)
    (s : EngineState) (l : List String) :
    stepN g endN Mode.heap k { s with unvisited := l } =
      { stepN g endN Mode.heap k s with unvisited := l } := by
  induction k generalizing s with
  | zero => rfl
  | succ k ih =>
    rw [stepN_succ, stepE_heap_set_unvisited, ih, stepN_succ]

theorem stepE_lin_perm (g : GraphL) (endN : String) (s : EngineState)
    (l : List String) (hperm : s.unvisited.Perm l)
    (huniq : UniqueMin s.dist s.unvisited) :
    ∃ l2, (stepE g endN Mode.lin s).unvisited.Perm l2 ∧
      stepE g endN Mode.lin { s with unvisited := l } =
        { stepE g endN Mode.lin s with unvisited := l2 } := by
  have hmin : pyMin s.dist l = pyMin s.dist s.unvisited :=
    (pyMin_perm s.dist s.unvisited l hperm huniq).symm
  unfold stepE
  dsimp only
  by_cases hg : s.is_running = false ∨ s.is_finished = true
  · simp only [if_pos hg]
    exact ⟨l, hperm, rfl⟩
  · simp only [if_neg hg, hmin]
    cases hp : pyMin s.dist s.unvisited with
    | none => exact ⟨l, hperm, rfl⟩
    | some u =>
      dsimp only
      by_cases ht : s.dist u = ⊤
      · simp only [if_pos ht]
        exact ⟨l, hperm, rfl⟩
      · simp only [if_neg ht]
        by_cases he : u = endN
        · simp only [if_pos he]
          exact ⟨l.erase u, hperm.erase u, rfl⟩
        · simp only [if_neg he]
          refine ⟨l.erase u, ?_, ?_⟩
          · rw [relaxAll_unvisited]
            exact hperm.erase u
          · exact relaxAll_set_unvisited g Mode.lin u (s.dist u)
              { s with unvisited := s.unvisited.erase u, current := some u,
                       visited := s.visited ++ [u] } (l.erase u)

theorem stepN_lin_perm (g : GraphL) (endN : String) (k : ℕ) (s : EngineState)
    (l : List String) (hperm : s.unvisited.Perm l)
    (huniq : ∀ j, j < k → UniqueMin (stepN g endN Mode.lin j s).dist
      (stepN g endN Mode.lin j s).unvisited) :
    ∃ l2, (stepN g endN Mode.lin k s).unvisited.Perm l2 ∧
      stepN g endN Mode.lin k { s with unvisited := l } =
        { stepN g endN Mode.lin k s with unvisited := l2 } := by
  induction k generalizing s l with
  | zero => exact ⟨l, hperm, rfl⟩
  | succ k ih =>
    have h0 : UniqueMin s.dist s.unvisited := huniq 0 (Nat.succ_pos k)
    obtain ⟨l1, hp1, he1⟩ := stepE_lin_perm g endN s l hperm h0
    have huniq2 : ∀ j, j < k → UniqueMin
        (stepN g endN Mode.lin j (stepE g endN Mode.lin s)).dist
        (stepN g endN Mode.lin j (stepE g endN Mode.lin s)).unvisited := by
      intro j hj
      have hjj := huniq (j + 1) (Nat.succ_lt_succ hj)
      rw [stepN_succ] at hjj
      exact hjj
    obtain ⟨l2, hp2, he2⟩ := ih (stepE g endN Mode.lin s) l1 hp1 huniq2
    refine ⟨l2, ?_, ?_⟩
    · rw [stepN_succ]
      exact hp2
    · rw [stepN_succ, he1, he2, stepN_succ]

/-! ### Claim theorems -/

/-- C1 (counterexample): on the graph `tieGraph` (end node `B` and node
`C` both reach tentative distance 1), the two modes do not produce
identical final distance tables: the heap run leaves `dist D = ∞` while a
linear-scan run whose unvisited-set iteration order lists `C` before `B`
(a legitimate order of Python's unordered `set`) settles `C` before the
end node and leaves `dist D = 2`.  Both runs are complete (Finished). -/
theorem C1_counterexample :
    (engineRun tieGraph "A" "B" Mode.heap (nodesOf tieGraph) 4).is_finished = true ∧
      (engineRun tieGraph "A" "B" Mode.lin ["A", "C", "B", "D"] 4).is_finished = true ∧
      PermOf tieGraph ["A", "C", "B", "D"] ∧
      (engineRun tieGraph "A" "B" Mode.heap (nodesOf tieGraph) 4).dist "D" = ⊤ ∧
      (engineRun tieGraph "A" "B" Mode.lin ["A", "C", "B", "D"] 4).dist "D" =
        ((2 : ℕ) : Dist) ∧
      (engineRun tieGraph "A" "B" Mode.heap (nodesOf tieGraph) 4).dist "D" ≠
        (engineRun tieGraph "A" "B" Mode.lin ["A", "C", "B", "D"] 4).dist "D" := by
  decide

/-- C1 (amended): for every well-formed graph and start/end pair, the two
modes run to completion always agree on the reconstructed shortest-path
cost: `dist[end]` of the completed PriorityQueue run equals `dist[end]` of
the completed LinearScan run for EVERY iteration order of the unvisited
set (both are the least walk cost from start to end), and so does the
reachability verdict.  The full final distance tables agree whenever the
linear scan's unvisited iteration order lists the nodes in ascending name
order — matching the heap's tie-breaking on `(distance, node)` entries —
in which case the two modes agree after every number of steps on the
entire observable state (distances, predecessors, visited order, current
node, run flags), hence also on the reconstructed path; with other
(unspecified) set iteration orders the tables may differ at nodes not yet
settled when the run stops, in the presence of equal-distance ties. -/
theorem C1_mode_equivalence (g : GraphL) (a b : String) (hWf : Wf g)
    (ha : a ∈ nodesOf g) (hb : b ∈ nodesOf g) (ord : List String)
    (hord : PermOf g ord) (k : ℕ) :
    (StateEquiv (engineRun g a b Mode.heap (sortNodes g) k)
        (engineRun g a b Mode.lin (sortNodes g) k) ∧
      currentPath g b (engineRun g a b Mode.heap (sortNodes g) k) =
        currentPath g b (engineRun g a b Mode.lin (sortNodes g) k) ∧
      pathFound b (engineRun g a b Mode.heap (sortNodes g) k) =
        pathFound b (engineRun g a b Mode.lin (sortNodes g) k)) ∧
      (engineRun g a b Mode.heap (sortNodes g) (nodesOf g).length).dist b =
        (engineRun g a b Mode.lin ord (nodesOf g).length).dist b ∧
      pathFound b (engineRun g a b Mode.heap (sortNodes g) (nodesOf g).length) =
        pathFound b (engineRun g a b Mode.lin ord (nodesOf g).length) := by
  have hcost := run_cost_eq g a b Mode.heap Mode.lin (sortNodes g) ord hWf ha hb
    (sortNodes_permOf g hWf.1) hord
  have hequiv := (coupled_run g a b hWf ha hb k).2.2.1
  obtain ⟨hdist, hprev, _, _, _, _⟩ := hequiv
  refine ⟨⟨(coupled_run g a b hWf ha hb k).2.2.1, ?_, ?_⟩, hcost, ?_⟩
  · unfold currentPath
    rw [hdist, hprev]
  · unfold pathFound
    rw [hdist]
  · unfold pathFound
    rw [hcost]

/-- Witness for C1: the amended equivalence instantiated on the built-in
graph with start `A`, end `G`, after 7 steps, with the dict insertion
order as the linear scan's iteration order. -/
theorem C1_mode_equivalence_witness :
    (Wf builtinGraph ∧ "A" ∈ nodesOf builtinGraph ∧ "G" ∈ nodesOf builtinGraph ∧
        PermOf builtinGraph (nodesOf builtinGraph)) ∧
      ((StateEquiv
          (engineRun builtinGraph "A" "G" Mode.heap (sortNodes builtinGraph) 7)
          (engineRun builtinGraph "A" "G" Mode.lin (sortNodes builtinGraph) 7) ∧
        currentPath builtinGraph "G"
            (engineRun builtinGraph "A" "G" Mode.heap (sortNodes builtinGraph) 7) =
          currentPath builtinGraph "G"
            (engineRun builtinGraph "A" "G" Mode.lin (sortNodes builtinGraph) 7) ∧
        pathFound "G"
            (engineRun builtinGraph "A" "G" Mode.heap (sortNodes builtinGraph) 7) =
          pathFound "G"
            (engineRun builtinGraph "A" "G" Mode.lin (sortNodes builtinGraph) 7)) ∧
        (engineRun builtinGraph "A" "G" Mode.heap (sortNodes builtinGraph)
            (nodesOf builtinGraph).length).dist "G" =
          (engineRun builtinGraph "A" "G" Mode.lin (nodesOf builtinGraph)
            (nodesOf builtinGraph).length).dist "G" ∧
        pathFound "G" (engineRun builtinGraph "A" "G" Mode.heap (sortNodes builtinGraph)
            (nodesOf builtinGraph).length) =
          pathFound "G" (engineRun builtinGraph "A" "G" Mode.lin (nodesOf builtinGraph)
            (nodesOf builtinGraph).length)) :=
  ⟨by decide,
    C1_mode_equivalence builtinGraph "A" "G" (by decide) (by decide) (by decide)
      (nodesOf builtinGraph) (by decide) 7⟩

/-- C2: on the built-in graph (`A-B 2, A-C 5, B-C 6, B-D 1, C-E 3, D-E 1,
D-F 4, E-G 2, F-G 1`) with start `A` and end `G`, each mode reaches
Finished (within 6 steps) with `dist G = 6` and reconstructed path
`[A, B, D, E, G]`, for EVERY iteration order `ord` of the unvisited set
`set(self.graph)`: the heap run never reads the unvisited set, and on
this graph every linear-scan selection has a unique minimum, so
`min(self.unvisited, key=self.dist.get)` is order-independent. -/
theorem C2_builtin_scenario (ord : List String)
    (hord : PermOf builtinGraph ord) :
    (engineRun builtinGraph "A" "G" Mode.heap ord 6).is_finished = true ∧
      (engineRun builtinGraph "A" "G" Mode.heap ord 6).dist "G" =
        ((6 : ℕ) : Dist) ∧
      currentPath builtinGraph "G"
          (engineRun builtinGraph "A" "G" Mode.heap ord 6) =
        some ["A", "B", "D", "E", "G"] ∧
      pathFound "G" (engineRun builtinGraph "A" "G" Mode.heap ord 6) = true ∧
      (engineRun builtinGraph "A" "G" Mode.lin ord 6).is_finished = true ∧
      (engineRun builtinGraph "A" "G" Mode.lin ord 6).dist "G" =
        ((6 : ℕ) : Dist) ∧
      currentPath builtinGraph "G"
          (engineRun builtinGraph "A" "G" Mode.lin ord 6) =
        some ["A", "B", "D", "E", "G"] ∧
      pathFound "G" (engineRun builtinGraph "A" "G" Mode.lin ord 6) = true := by
  have hpermN : (nodesOf builtinGraph).Perm ord :=
    permOf_perm builtinGraph ord (by decide) hord
  have hH : engineRun builtinGraph "A" "G" Mode.heap ord 6 =
      { engineRun builtinGraph "A" "G" Mode.heap (nodesOf builtinGraph) 6 with
          unvisited := ord } := by
    show stepN builtinGraph "G" Mode.heap 6
        (startE "A" Mode.heap 0 (resetE "A" ord)) = _
    have h0 : startE "A" Mode.heap 0 (resetE "A" ord) =
        { startE "A" Mode.heap 0 (resetE "A" (nodesOf builtinGraph)) with
            unvisited := ord } := rfl
    rw [h0, stepN_heap_set_unvisited]
    rfl
  obtain ⟨l2, hp2, hL0⟩ := stepN_lin_perm builtinGraph "G" 6
      (startE "A" Mode.lin 0 (resetE "A" (nodesOf builtinGraph))) ord hpermN
      (by decide)
  have hL : engineRun builtinGraph "A" "G" Mode.lin ord 6 =
      { engineRun builtinGraph "A" "G" Mode.lin (nodesOf builtinGraph) 6 with
          unvisited := l2 } := by
    show stepN builtinGraph "G" Mode.lin 6
        (startE "A" Mode.lin 0 (resetE "A" ord)) = _
    have h0 : startE "A" Mode.lin 0 (resetE "A" ord) =
        { startE "A" Mode.lin 0 (resetE "A" (nodesOf builtinGraph)) with
            unvisited := ord } := rfl
    rw [h0]
    exact hL0
  have hHd : (engineRun builtinGraph "A" "G" Mode.heap ord 6).dist =
      (engineRun builtinGraph "A" "G" Mode.heap (nodesOf builtinGraph) 6).dist := by
    rw [hH]
  have hHp : (engineRun builtinGraph "A" "G" Mode.heap ord 6).prev =
      (engineRun builtinGraph "A" "G" Mode.heap (nodesOf builtinGraph) 6).prev := by
    rw [hH]
  have hHf : (engineRun builtinGraph "A" "G" Mode.heap ord 6).is_finished =
      (engineRun builtinGraph "A" "G" Mode.heap (nodesOf builtinGraph) 6).is_finished := by
    rw [hH]
  have hLd : (engineRun builtinGraph "A" "G" Mode.lin ord 6).dist =
      (engineRun builtinGraph "A" "G" Mode.lin (nodesOf builtinGraph) 6).dist := by
    rw [hL]
  have hLp : (engineRun builtinGraph "A" "G" Mode.lin ord 6).prev =
      (engineRun builtinGraph "A" "G" Mode.lin (nodesOf builtinGraph) 6).prev := by
    rw [hL]
  have hLf : (engineRun builtinGraph "A" "G" Mode.lin ord 6).is_finished =
      (engineRun builtinGraph "A" "G" Mode.lin (nodesOf builtinGraph) 6).is_finished := by
    rw [hL]
  refine ⟨?_, ?_, ?_, ?_, ?_, ?_, ?_, ?_⟩
  · rw [hHf]; decide
  · rw [hHd]; decide
  · unfold currentPath
    rw [hHd, hHp]
    decide
  · unfold pathFound
    rw [hHd]
    decide
  · rw [hLf]; decide
  · rw [hLd]; decide
  · unfold currentPath
    rw [hLd, hLp]
    decide
  · unfold pathFound
    rw [hLd]
    decide

/-- Witness for C2: instantiated with the dict insertion order standing
for the set's iteration order. -/
theorem C2_builtin_scenario_witness :
    PermOf builtinGraph (nodesOf builtinGraph) ∧
      ((engineRun builtinGraph "A" "G" Mode.heap (nodesOf builtinGraph) 6).is_finished
          = true ∧
        (engineRun builtinGraph "A" "G" Mode.heap (nodesOf builtinGraph) 6).dist "G" =
          ((6 : ℕ) : Dist) ∧
        currentPath builtinGraph "G"
            (engineRun builtinGraph "A" "G" Mode.heap (nodesOf builtinGraph) 6) =
          some ["A", "B", "D", "E", "G"] ∧
        pathFound "G"
            (engineRun builtinGraph "A" "G" Mode.heap (nodesOf builtinGraph) 6) = true ∧
        (engineRun builtinGraph "A" "G" Mode.lin (nodesOf builtinGraph) 6).is_finished
          = true ∧
        (engineRun builtinGraph "A" "G" Mode.lin (nodesOf builtinGraph) 6).dist "G" =
          ((6 : ℕ) : Dist) ∧
        currentPath builtinGraph "G"
            (engineRun builtinGraph "A" "G" Mode.lin (nodesOf builtinGraph) 6) =
          some ["A", "B", "D", "E", "G"] ∧
        pathFound "G"
            (engineRun builtinGraph "A" "G" Mode.lin (nodesOf builtinGraph) 6) = true) :=
  ⟨by decide, C2_builtin_scenario (nodesOf builtinGraph) (by decide)⟩

/-- C3: in any engine state, one `step()` never increases the tentative
distance of any node; the distance and predecessor entries of a node
already in the visited set are unchanged by the step and the node stays
visited; `dist[start]` is `0` right after `reset` and remains `0` across
any step. -/
theorem C3_monotonic_frozen (g : GraphL) (endN a : String) (mode : Mode)
    (ord : List String) (s : EngineState) (v : String) :
    (stepE g endN mode s).dist v ≤ s.dist v ∧
      (v ∈ s.visited →
        (stepE g endN mode s).dist v = s.dist v ∧
          (stepE g endN mode s).prev v = s.prev v ∧
          v ∈ (stepE g endN mode s).visited) ∧
      (resetE a ord).dist a = 0 ∧
      (s.dist a = 0 → (stepE g endN mode s).dist a = 0) := by
  refine ⟨stepE_dist_le g endN mode s v, ?_, ?_, stepE_dist_start g endN mode s a⟩
  · intro hv
    exact stepE_frozen g endN mode s v hv
  · show (if a = a then (0 : Dist) else ⊤) = 0
    rw [if_pos rfl]

/-- Witness for C3: instantiated on the built-in graph after 3 heap-mode
steps, at the visited node `A`. -/
theorem C3_witness :
    "A" ∈ (engineRun builtinGraph "A" "G" Mode.heap (nodesOf builtinGraph) 3).visited ∧
      ((stepE builtinGraph "G" Mode.heap
            (engineRun builtinGraph "A" "G" Mode.heap (nodesOf builtinGraph) 3)).dist "A" =
          (engineRun builtinGraph "A" "G" Mode.heap (nodesOf builtinGraph) 3).dist "A" ∧
        (stepE builtinGraph "G" Mode.heap
            (engineRun builtinGraph "A" "G" Mode.heap (nodesOf builtinGraph) 3)).prev "A" =
          (engineRun builtinGraph "A" "G" Mode.heap (nodesOf builtinGraph) 3).prev "A" ∧
        "A" ∈ (stepE builtinGraph "G" Mode.heap
            (engineRun builtinGraph "A" "G" Mode.heap (nodesOf builtinGraph) 3)).visited) :=
  ⟨by decide,
    (C3_monotonic_frozen builtinGraph "G" "A" Mode.heap (nodesOf builtinGraph)
      (engineRun builtinGraph "A" "G" Mode.heap (nodesOf builtinGraph) 3) "A").2.1
      (by decide)⟩

/-- C4 (counterexample): `start()` checks only the running flag.  On the
built-in graph run to completion (a Finished, non-running state), calling
`start()` again is not rejected: it flips the running flag back on and, in
heap mode, pushes `(0, A)` onto the leftover priority queue, so the engine
state is not left unchanged. -/
theorem C4_counterexample :
    (engineRun builtinGraph "A" "G" Mode.heap (nodesOf builtinGraph) 6).is_finished
        = true ∧
      (engineRun builtinGraph "A" "G" Mode.heap (nodesOf builtinGraph) 6).is_running
        = false ∧
      (startE "A" Mode.heap 5
          (engineRun builtinGraph "A" "G" Mode.heap (nodesOf builtinGraph) 6)).is_running
        = true ∧
      (startE "A" Mode.heap 5
          (engineRun builtinGraph "A" "G" Mode.heap (nodesOf builtinGraph) 6)).pq ≠
        (engineRun builtinGraph "A" "G" Mode.heap (nodesOf builtinGraph) 6).pq := by
  decide

/-- C4 (amended): `start()` while Running is a no-op leaving the whole
engine state unchanged; but `start()` while Finished (not Running) is not
rejected: it sets the running flag, records the new timestamp and, in heap
mode, pushes `(0, start)` onto the existing priority queue, leaving
distances, predecessors, visited and unvisited sets and the finished flag
unchanged — and because the finished flag is still set, `step()` remains
inert afterward.  The caller must still `reset` to get a fresh run. -/
theorem C4_start_guard (a : String) (mode : Mode) (t : ℕ) (s : EngineState) :
    (s.is_running = true → startE a mode t s = s) ∧
      (s.is_running = false →
        (startE a mode t s).is_running = true ∧
          (startE a mode t s).start_time = t ∧
          (startE a mode t s).dist = s.dist ∧
          (startE a mode t s).prev = s.prev ∧
          (startE a mode t s).visited = s.visited ∧
          (startE a mode t s).unvisited = s.unvisited ∧
          (startE a mode t s).is_finished = s.is_finished ∧
          (startE a mode t s).pq =
            (if mode = Mode.heap then pqPush ((0 : Dist), a) s.pq else s.pq) ∧
          (s.is_finished = true → ∀ (g : GraphL) (endN : String) (mode2 : Mode),
            stepE g endN mode2 (startE a mode t s) = startE a mode t s)) := by
  constructor
  · intro hrun
    unfold startE
    rw [if_pos hrun]
  · intro hrun
    have hne : ¬(s.is_running = true) := by rw [hrun]; simp
    unfold startE
    rw [if_neg hne]
    refine ⟨rfl, rfl, rfl, rfl, rfl, rfl, rfl, rfl, ?_⟩
    intro hfin g endN mode2
    exact stepE_finished_inert g endN mode2 _ hfin

/-- Witness for C4: the amended guarantee instantiated at the completed
(Finished, not running) built-in heap run. -/
theorem C4_start_guard_witness :
    (engineRun builtinGraph "A" "G" Mode.heap (nodesOf builtinGraph) 6).is_running
        = false ∧
      ((startE "A" Mode.heap 5
          (engineRun builtinGraph "A" "G" Mode.heap (nodesOf builtinGraph) 6)).is_running
          = true ∧
        (startE "A" Mode.heap 5
          (engineRun builtinGraph "A" "G" Mode.heap (nodesOf builtinGraph) 6)).start_time
          = 5 ∧
        (startE "A" Mode.heap 5
          (engineRun builtinGraph "A" "G" Mode.heap (nodesOf builtinGraph) 6)).dist =
          (engineRun builtinGraph "A" "G" Mode.heap (nodesOf builtinGraph) 6).dist ∧
        (startE "A" Mode.heap 5
          (engineRun builtinGraph "A" "G" Mode.heap (nodesOf builtinGraph) 6)).prev =
          (engineRun builtinGraph "A" "G" Mode.heap (nodesOf builtinGraph) 6).prev ∧
        (startE "A" Mode.heap 5
          (engineRun builtinGraph "A" "G" Mode.heap (nodesOf builtinGraph) 6)).visited =
          (engineRun builtinGraph "A" "G" Mode.heap (nodesOf builtinGraph) 6).visited ∧
        (startE "A" Mode.heap 5
          (engineRun builtinGraph "A" "G" Mode.heap (nodesOf builtinGraph) 6)).unvisited =
          (engineRun builtinGraph "A" "G" Mode.heap (nodesOf builtinGraph) 6).unvisited ∧
        (startE "A" Mode.heap 5
          (engineRun builtinGraph "A" "G" Mode.heap (nodesOf builtinGraph) 6)).is_finished =
          (engineRun builtinGraph "A" "G" Mode.heap (nodesOf builtinGraph) 6).is_finished ∧
        (startE "A" Mode.heap 5
          (engineRun builtinGraph "A" "G" Mode.heap (nodesOf builtinGraph) 6)).pq =
          (if Mode.heap = Mode.heap then
            pqPush ((0 : Dist), "A")
              (engineRun builtinGraph "A" "G" Mode.heap (nodesOf builtinGraph) 6).pq
          else (engineRun builtinGraph "A" "G" Mode.heap (nodesOf builtinGraph) 6).pq) ∧
        ((engineRun builtinGraph "A" "G" Mode.heap (nodesOf builtinGraph) 6).is_finished
            = true →
          ∀ (g : GraphL) (endN : String) (mode2 : Mode),
            stepE g endN mode2 (startE "A" Mode.heap 5
                (engineRun builtinGraph "A" "G" Mode.heap (nodesOf builtinGraph) 6)) =
              startE "A" Mode.heap 5
                (engineRun builtinGraph "A" "G" Mode.heap (nodesOf builtinGraph) 6))) :=
  ⟨by decide,
    (C4_start_guard "A" Mode.heap 5
      (engineRun builtinGraph "A" "G" Mode.heap (nodesOf builtinGraph) 6)).2 (by decide)⟩

/-- C5: calling `step()` when the engine is not Running (Idle) or already
Finished is an inert no-op: the guard returns before touching anything, so
the whole engine state — distances, predecessors, visited and unvisited
sets, priority queue, current node, flags, timestamp — is exactly
unchanged (and modelled as a total function, `step` cannot raise). -/
theorem C5_step_inert (g : GraphL) (endN : String) (mode : Mode)
    (s : EngineState) (h : s.is_running = false ∨ s.is_finished = true) :
    stepE g endN mode s = s :=
  stepE_inert g endN mode s h

/-- Witness for C5: `step()` right after `reset()` (Idle state) on the
built-in graph leaves the state unchanged. -/
theorem C5_step_inert_witness :
    ((resetE "A" (nodesOf builtinGraph)).is_running = false ∨
        (resetE "A" (nodesOf builtinGraph)).is_finished = true) ∧
      stepE builtinGraph "G" Mode.heap (resetE "A" (nodesOf builtinGraph)) =
        resetE "A" (nodesOf builtinGraph) :=
  ⟨Or.inl (by decide),
    C5_step_inert builtinGraph "G" Mode.heap (resetE "A" (nodesOf builtinGraph))
      (Or.inl (by decide))⟩

/-- C6: whenever the end node is separated from the start node (there is a
set `R` of nodes containing the start, closed under adjacency, and not
containing the end — i.e. the end lies in a different component of the
undirected graph), each mode reaches Finished within `|V|` steps with
`dist end` still infinite and the finish report computing
`reachable = (dist end < inf) = false`. -/
theorem C6_unreachable (g : GraphL) (a b : String) (mode : Mode)
    (ord R : List String) (hWf : Wf g) (ha : a ∈ nodesOf g)
    (hb : b ∈ nodesOf g) (hord : PermOf g ord) (_hsym : SymmG g)
    (haR : a ∈ R) (hclosed : ∀ u ∈ R, ∀ e ∈ adjOf g u, e.1 ∈ R)
    (hbR : b ∉ R) :
    (engineRun g a b mode ord (nodesOf g).length).is_finished = true ∧
      (engineRun g a b mode ord (nodesOf g).length).dist b = ⊤ ∧
      pathFound b (engineRun g a b mode ord (nodesOf g).length) = false := by
  have hfin := run_terminates g a b mode ord hWf ha hb hord
  have hreach := (run_reach g a b mode ord R haR hclosed (nodesOf g).length).1
  have hdist : (engineRun g a b mode ord (nodesOf g).length).dist b = ⊤ := by
    by_contra hcon
    exact hbR (hreach b hcon)
  refine ⟨hfin, hdist, ?_⟩
  unfold pathFound
  rw [hdist]
  simp

/-- Witness for C6: the two-component graph `splitGraph` with start `A`,
end `C`, separator `R = [A, B]`, in heap mode. -/
theorem C6_unreachable_witness :
    (Wf splitGraph ∧ "A" ∈ nodesOf splitGraph ∧ "C" ∈ nodesOf splitGraph ∧
        PermOf splitGraph (nodesOf splitGraph) ∧ SymmG splitGraph ∧
        "A" ∈ ["A", "B"] ∧
        (∀ u ∈ ["A", "B"], ∀ e ∈ adjOf splitGraph u, e.1 ∈ ["A", "B"]) ∧
        "C" ∉ ["A", "B"]) ∧
      ((engineRun splitGraph "A" "C" Mode.heap (nodesOf splitGraph)
          (nodesOf splitGraph).length).is_finished = true ∧
        (engineRun splitGraph "A" "C" Mode.heap (nodesOf splitGraph)
          (nodesOf splitGraph).length).dist "C" = ⊤ ∧
        pathFound "C" (engineRun splitGraph "A" "C" Mode.heap (nodesOf splitGraph)
          (nodesOf splitGraph).length) = false) :=
  ⟨by decide,
    C6_unreachable splitGraph "A" "C" Mode.heap (nodesOf splitGraph) ["A", "B"]
      (by decide) (by decide) (by decide) (by decide) (by decide) (by decide)
      (by decide) (by decide)⟩

/-- C7: on every well-formed graph, from Idle via `start()`, each mode
reaches the Finished state within at most `|V|` calls of `step()` (and
Finished is absorbing, so it still holds at `|V|` even when the run
finishes earlier). -/
theorem C7_terminates (g : GraphL) (a b : String) (mode : Mode)
    (ord : List String) (hWf : Wf g) (ha : a ∈ nodesOf g)
    (hb : b ∈ nodesOf g) (hord : PermOf g ord) :
    (engineRun g a b mode ord (nodesOf g).length).is_finished = true :=
  run_terminates g a b mode ord hWf ha hb hord

/-- Witness for C7: the built-in graph reaches Finished within its 7
steps, in linear-scan mode. -/
theorem C7_terminates_witness :
    (Wf builtinGraph ∧ "A" ∈ nodesOf builtinGraph ∧ "G" ∈ nodesOf builtinGraph ∧
        PermOf builtinGraph (nodesOf builtinGraph)) ∧
      (engineRun builtinGraph "A" "G" Mode.lin (nodesOf builtinGraph)
        (nodesOf builtinGraph).length).is_finished = true :=
  ⟨by decide,
    C7_terminates builtinGraph "A" "G" Mode.lin (nodesOf builtinGraph)
      (by decide) (by decide) (by decide) (by decide)⟩

/-- C9: in heap mode, whenever the selection phase of `step()` pops a
fresh (non-stale) entry `(d, u)` — after lazily discarding entries with
already-visited nodes — the node `u` is indeed unvisited and the popped
priority `d` equals the current tentative distance `dist[u]` (and is
finite), so the subsequent relaxations computed from `d` use the correct
tentative distance despite the stale duplicates left in the heap. -/
theorem C9_fresh_pop (g : GraphL) (a b : String) (ord : List String) (k : ℕ)
    (hWf : Wf g) (ha : a ∈ nodesOf g) (hb : b ∈ nodesOf g)
    (hord : PermOf g ord) (d : Dist) (u : String)
    (rest : List (Dist × String))
    (hp : popFresh (engineRun g a b Mode.heap ord k).visited
        (engineRun g a b Mode.heap ord k).pq = some ((d, u), rest)) :
    u ∉ (engineRun g a b Mode.heap ord k).visited ∧
      d = (engineRun g a b Mode.heap ord k).dist u ∧ d ≠ ⊤ := by
  have hInv := run_inv g a b Mode.heap 0 ord k hWf ha hb hord
  obtain ⟨_, hnvis, hdu, hfin, _⟩ :=
    heap_select g a b (engineRun g a b Mode.heap ord k) hInv d u rest hp
  refine ⟨hnvis, hdu, ?_⟩
  rw [hdu]
  exact hfin

/-- Witness for C9: right after `start()` on the built-in graph the heap
holds exactly the fresh entry `(0, A)`, and indeed `dist A = 0`. -/
theorem C9_fresh_pop_witness :
    (Wf builtinGraph ∧ "A" ∈ nodesOf builtinGraph ∧ "G" ∈ nodesOf builtinGraph ∧
        PermOf builtinGraph (nodesOf builtinGraph) ∧
        popFresh (engineRun builtinGraph "A" "G" Mode.heap (nodesOf builtinGraph) 0).visited
            (engineRun builtinGraph "A" "G" Mode.heap (nodesOf builtinGraph) 0).pq =
          some (((0 : Dist), "A"), [])) ∧
      ("A" ∉ (engineRun builtinGraph "A" "G" Mode.heap (nodesOf builtinGraph) 0).visited ∧
        (0 : Dist) =
          (engineRun builtinGraph "A" "G" Mode.heap (nodesOf builtinGraph) 0).dist "A" ∧
        (0 : Dist) ≠ ⊤) :=
  ⟨by decide,
    C9_fresh_pop builtinGraph "A" "G" (nodesOf builtinGraph) 0 (by decide)
      (by decide) (by decide) (by decide) (0 : Dist) "A" [] (by decide)⟩

/-- C10: in LinearScan mode the visited and unvisited sets partition the
node set after `reset` and after every step (they are disjoint and cover
exactly the graph's nodes); in PriorityQueue mode the unvisited set is
never mutated after `reset` (it stays the full initial enumeration). -/
theorem C10_partition (g : GraphL) (a b : String) (ord : List String) (k : ℕ)
    (hWf : Wf g) (ha : a ∈ nodesOf g) (hb : b ∈ nodesOf g)
    (hord : PermOf g ord) :
    (resetE a ord).visited = [] ∧ (resetE a ord).unvisited = ord ∧
      (∀ v, v ∈ (engineRun g a b Mode.lin ord k).visited →
        v ∉ (engineRun g a b Mode.lin ord k).unvisited) ∧
      (∀ v, v ∈ nodesOf g ↔
        (v ∈ (engineRun g a b Mode.lin ord k).visited ∨
          v ∈ (engineRun g a b Mode.lin ord k).unvisited)) ∧
      (engineRun g a b Mode.heap ord k).unvisited = ord := by
  have hheap : ∀ j, (engineRun g a b Mode.heap ord j).unvisited = ord := by
    intro j
    induction j with
    | zero =>
      rw [show engineRun g a b Mode.heap ord 0 = startE a Mode.heap 0 (resetE a ord)
        from rfl, startE_reset_state]
      rfl
    | succ j ih =>
      have heq : engineRun g a b Mode.heap ord (j + 1) =
          stepE g b Mode.heap (engineRun g a b Mode.heap ord j) := by
        unfold engineRun
        rw [stepN_succ_out]
      rw [heq, stepE_unvisited_heap]
      exact ih
  have hInv := run_inv g a b Mode.lin 0 ord k hWf ha hb hord
  refine ⟨rfl, rfl, ?_, ?_, hheap k⟩
  · intro v hv hcon
    exact ((hInv.unvisited_iff rfl v).mp hcon).2 hv
  · intro v
    constructor
    · intro hv
      by_cases hvis : v ∈ (engineRun g a b Mode.lin ord k).visited
      · exact Or.inl hvis
      · exact Or.inr ((hInv.unvisited_iff rfl v).mpr ⟨hv, hvis⟩)
    · intro hv
      rcases hv with hv | hv
      · exact hInv.visited_nodes v hv
      · exact ((hInv.unvisited_iff rfl v).mp hv).1

/-- Witness for C10: instantiated on the built-in graph after 3
linear-scan steps. -/
theorem C10_partition_witness :
    (Wf builtinGraph ∧ "A" ∈ nodesOf builtinGraph ∧ "G" ∈ nodesOf builtinGraph ∧
        PermOf builtinGraph (nodesOf builtinGraph)) ∧
      ((resetE "A" (nodesOf builtinGraph)).visited = [] ∧
        (resetE "A" (nodesOf builtinGraph)).unvisited = nodesOf builtinGraph ∧
        (∀ v, v ∈ (engineRun builtinGraph "A" "G" Mode.lin (nodesOf builtinGraph) 3).visited →
          v ∉ (engineRun builtinGraph "A" "G" Mode.lin (nodesOf builtinGraph) 3).unvisited) ∧
        (∀ v, v ∈ nodesOf builtinGraph ↔
          (v ∈ (engineRun builtinGraph "A" "G" Mode.lin (nodesOf builtinGraph) 3).visited ∨
            v ∈ (engineRun builtinGraph "A" "G" Mode.lin (nodesOf builtinGraph) 3).unvisited)) ∧
        (engineRun builtinGraph "A" "G" Mode.heap (nodesOf builtinGraph) 3).unvisited =
          nodesOf builtinGraph) :=
  ⟨by decide,
    C10_partition builtinGraph "A" "G" (nodesOf builtinGraph) 3 (by decide)
      (by decide) (by decide) (by decide)⟩

end DijkstraViz
